import Mathlib

/-!
Verification of the reactive hybrid-evaluation task graph in
`src/python/wub_graph/g_hybrid.py`.

The Python code is shallowly embedded as follows.  Python `TaskNode` objects are
mutable and aliased, so the embedding keeps a heap `Nat → Node V` indexed by an
allocation counter (object identity); `dependencies`/`dependents` store ids.
Python `None` (the "not ready" sentinel) is `Option.none`.  Recursive evaluation
(`compute`/`get_value`) and recursive dirty propagation (`mark_dirty`) take a
fuel parameter: Python recursion either terminates (then any sufficiently large
fuel computes the same result) or diverges (not in scope of any claim).  Each
evaluation step also returns the list of node ids whose (underlying) function
was actually invoked, in invocation order, so that "without invoking the node's
function" claims are expressible.
-/

namespace GHybrid

/-- Execution strategies for task nodes (mirrors `ExecutionMode` in g_hybrid.py). -/
inductive ExecutionMode where
  | eager
  | lazy
  | cached
deriving DecidableEq, Repr

/-- The function attached to a node: either a plain compute function receiving the
resolved dependency values (the `compute_func` wrappers and input-node lambdas),
or the `load_func` created for CACHED nodes, which consults the registry-level
cache under `cacheKey` before falling back to the underlying function, whose
return value (for its captured arguments) is `underlying`. -/
inductive NodeFunc (V : Type) where
  | fn (f : List V → Option V)
  | cachedLoad (cacheKey : String) (underlying : Option V)

/-- A task node (mirrors `TaskNode.__init__`).  Initial state is
uncomputed/dirty with an empty override stack. -/
structure Node (V : Type) where
  name : String
  func : NodeFunc V
  dependencies : List Nat
  dependents : List Nat
  mode : ExecutionMode
  can_set : Bool
  result : Option V
  is_computed : Bool
  is_dirty : Bool
  override_stack : List (Option V)

/-- Registry of nodes (mirrors `DAGRegistry.__init__`), plus an allocation counter
`nextId` and the heap mapping ids to node states (Python's object store).
`nodes` and `input_nodes` are insertion-ordered association lists, mirroring
Python dicts. -/
structure Registry (V : Type) where
  heap : Nat → Node V
  nextId : Nat
  nodes : List (String × Nat)
  input_nodes : List ((String × String) × Nat)
  cached_values : List (String × Option V)

/-- The executor state (mirrors `DAG.__init__`). -/
structure Dag (V : Type) where
  reg : Registry V
  eager_executed : Bool

/-- First-match association-list lookup (Python dict read; keys are unique in a
dict, so first match is the match). -/
def alook {κ α : Type} [DecidableEq κ] : List (κ × α) → κ → Option α
  | [], _ => none
  | p :: rest, k => if p.1 = k then some p.2 else alook rest k

/-- Dict-style assignment: replace the first binding in place, else append
(Python dicts keep the original insertion position on overwrite). -/
def aupsert {κ α : Type} [DecidableEq κ] : List (κ × α) → κ → α → List (κ × α)
  | [], k, v => [(k, v)]
  | p :: rest, k, v => if p.1 = k then (k, v) :: rest else p :: aupsert rest k v

/-- Update the node stored at id `i`. -/
def updHeap {V : Type} (reg : Registry V) (i : Nat) (g : Node V → Node V) : Registry V :=
  { reg with heap := fun j => if j = i then g (reg.heap j) else reg.heap j }

/-- Result of an evaluation step: updated registry, returned value, and the ids
whose function was invoked. -/
abbrev EvalOut (V : Type) := Registry V × Option V × List Nat

/-- Interpret a node's function applied to the resolved dependency values.  For
the CACHED `load_func` the registry cache is consulted first; only a cache miss
invokes the underlying function (recorded in the trace) and memoizes its result. -/
def applyFunc {V : Type} (reg : Registry V) (i : Nat) (nf : NodeFunc V) (vals : List V) :
    Registry V × Option V × List Nat :=
  match nf with
  | NodeFunc.fn f => (reg, f vals, [i])
  | NodeFunc.cachedLoad key u =>
    match alook reg.cached_values key with
    | some v => (reg, v, [])
    | none => ({ reg with cached_values := reg.cached_values ++ [(key, u)] }, u, [i])

/-- Evaluate each id with `gv`, threading the registry left to right (mirrors
`[dep.get_value() for dep in self.dependencies]`). -/
def runDeps {V : Type} (gv : Registry V → Nat → EvalOut V) :
    Registry V → List Nat → Registry V × List (Option V) × List Nat
  | reg, [] => (reg, [], [])
  | reg, d :: rest =>
    let r := gv reg d
    let r2 := runDeps gv r.1 rest
    (r2.1, r.2.1 :: r2.2.1, r.2.2 ++ r2.2.2)

mutual
/-- `TaskNode.compute(force)`: skip if clean and not forced; fetch dependency
values via `get_value`; return `none` if any dependency value is `none`;
otherwise invoke the function, store the result, and mark computed/clean. -/
def computeF {V : Type} : Nat → Registry V → Nat → Bool → EvalOut V
  | 0, reg, _, _ => (reg, none, [])
  | f + 1, reg, i, force =>
    let node := reg.heap i
    if force = false ∧ node.is_dirty = false ∧ node.is_computed = true then
      (reg, node.result, [])
    else
      let r := runDeps (getValueF f) reg node.dependencies
      if r.2.1.any Option.isNone then (r.1, none, r.2.2)
      else
        let a := applyFunc r.1 i node.func (r.2.1.filterMap id)
        (updHeap a.1 i (fun n =>
          { n with result := a.2.1, is_computed := true, is_dirty := false }),
         a.2.1, r.2.2 ++ a.2.2)

/-- `TaskNode.get_value`: top of the override stack if non-empty; else compute
first when dirty and LAZY/CACHED; then return the (possibly stale) `result`. -/
def getValueF {V : Type} : Nat → Registry V → Nat → EvalOut V
  | 0, reg, _ => (reg, none, [])
  | f + 1, reg, i =>
    let node := reg.heap i
    match node.override_stack with
    | v :: _ => (reg, v, [])
    | [] =>
      if node.is_dirty = true ∧
          (node.mode = ExecutionMode.lazy ∨ node.mode = ExecutionMode.cached) then
        let c := computeF f reg i false
        (c.1, (c.1.heap i).result, c.2.2)
      else (reg, node.result, [])
end

/-- `TaskNode.mark_dirty` with fuel: set the flag if not already set, then recurse
into every dependent (the source recurses into dependents even when the node was
already dirty). -/
def markDirtyF {V : Type} : Nat → Registry V → Nat → Registry V
  | 0, reg, _ => reg
  | f + 1, reg, i =>
    let node := reg.heap i
    let reg1 := if node.is_dirty then reg
      else updHeap reg i (fun n => { n with is_dirty := true })
    node.dependents.foldl (markDirtyF f) reg1

/-- `TaskNode.mark_dependents_dirty`. -/
def markDependentsDirty {V : Type} (f : Nat) (reg : Registry V) (i : Nat) : Registry V :=
  ((reg.heap i).dependents).foldl (markDirtyF f) reg

/-- `TaskNode.set_value(value)`.  The second component is the raised error message,
if any; Python raises before any mutation, so on error the registry is unchanged. -/
def setValue {V : Type} (f : Nat) (reg : Registry V) (i : Nat) (v : Option V) :
    Registry V × Option String :=
  let node := reg.heap i
  if node.can_set = false then
    (reg, some ("Cannot set value on immutable node " ++ node.name))
  else
    let reg1 := updHeap reg i (fun n =>
      { n with result := v, is_computed := true, is_dirty := false })
    (markDependentsDirty f reg1 i, none)

/-- `OverrideContext.__enter__`: push the temporary value, mark dependents dirty. -/
def enterOverride {V : Type} (f : Nat) (reg : Registry V) (i : Nat) (v : Option V) :
    Registry V :=
  let reg1 := updHeap reg i (fun n => { n with override_stack := v :: n.override_stack })
  markDependentsDirty f reg1 i

/-- `OverrideContext.__exit__`: pop the override, mark dependents dirty. -/
def exitOverride {V : Type} (f : Nat) (reg : Registry V) (i : Nat) : Registry V :=
  let reg1 := updHeap reg i (fun n => { n with override_stack := n.override_stack.tail })
  markDependentsDirty f reg1 i

/-- A `with node.override(v): body` block.  The body is a state transformer that may
finish normally (`Except.ok`) or raise (`Except.error`); Python object mutations
survive an exception, so the body returns the registry in both cases, and
`__exit__` runs on both exit paths. -/
def overrideRun {V E A : Type} (f : Nat) (reg : Registry V) (i : Nat) (v : Option V)
    (body : Registry V → Registry V × Except E A) : Registry V × Except E A :=
  let reg1 := enterOverride f reg i v
  match body reg1 with
  | (reg2, Except.ok a) => (exitOverride f reg2 i, Except.ok a)
  | (reg2, Except.error e) => (exitOverride f reg2 i, Except.error e)

/-- `TaskNode.reset`: only acts when the node is computed, and does not touch
`result`. -/
def resetNode {V : Type} (n : Node V) : Node V :=
  if n.is_computed then
    { n with is_computed := false, is_dirty := true, override_stack := [] }
  else n

/-- `DAGRegistry.reset`: reset every registered node, clear `cached_values`. -/
def registryReset {V : Type} (reg : Registry V) : Registry V :=
  let reg1 := reg.nodes.foldl (fun r p => updHeap r p.2 resetNode) reg
  { reg1 with cached_values := [] }

/-- `DAG.reset`. -/
def dagReset {V : Type} (d : Dag V) : Dag V :=
  { reg := registryReset d.reg, eager_executed := false }

/-- `TaskNode.__init__` allocation: store the node at a fresh id and append this
id to the `dependents` list of each dependency (once per occurrence). -/
def allocNode {V : Type} (reg : Registry V) (node : Node V) : Registry V × Nat :=
  let i := reg.nextId
  let reg1 : Registry V :=
    { reg with heap := fun j => if j = i then node else reg.heap j, nextId := i + 1 }
  let reg2 := node.dependencies.foldl
    (fun r d => updHeap r d (fun n => { n with dependents := n.dependents ++ [i] })) reg1
  (reg2, i)

/-- The argument-scanning dependency collection of the regular wrapper:
`for arg in args: if isinstance(arg, TaskNode) and arg not in actual_deps: append`. -/
def dedupAppend (base : List Nat) : List Nat → List Nat
  | [] => base
  | a :: rest => dedupAppend (if a ∈ base then base else base ++ [a]) rest

/-- The regular (non-CACHED) branch of the `DAGRegistry.node` wrapper: return the
existing node if the name is registered, else create and register a node whose
dependencies are the declared ones plus any node-valued call arguments. -/
def regularNodeCall {V : Type} (reg : Registry V) (node_name : String)
    (depNodes : List Nat) (f : List V → Option V) (mode : ExecutionMode)
    (can_set : Bool) (argNodes : List Nat) : Registry V × Nat :=
  match alook reg.nodes node_name with
  | some i => (reg, i)
  | none =>
    let actual := dedupAppend depNodes argNodes
    let r := allocNode reg
      { name := node_name, func := NodeFunc.fn f, dependencies := actual,
        dependents := [], mode := mode, can_set := can_set, result := none,
        is_computed := false, is_dirty := true, override_stack := [] }
    ({ r.1 with nodes := r.1.nodes ++ [(node_name, r.2)] }, r.2)

/-- The CACHED branch of the `DAGRegistry.node` wrapper: the effective node name
is `"{name}_{dt}"` when a (truthy) `dt` is supplied; an existing node is
returned as-is; otherwise a dependency-free node is created whose function is
the cache-consulting `load_func` (note the cache key always interpolates `dt`,
even when it is `None`). -/
def cachedNodeCall {V : Type} (reg : Registry V) (node_name : String)
    (dt : Option String) (underlying : Option V) (can_set : Bool) :
    Registry V × Nat :=
  let unique_name := match dt with
    | some d => node_name ++ "_" ++ d
    | none => node_name
  match alook reg.nodes unique_name with
  | some i => (reg, i)
  | none =>
    let cache_key := node_name ++ "_" ++ (match dt with | some d => d | none => "None")
    let r := allocNode reg
      { name := unique_name, func := NodeFunc.cachedLoad cache_key underlying,
        dependencies := [], dependents := [], mode := ExecutionMode.cached,
        can_set := can_set, result := none, is_computed := false, is_dirty := true,
        override_stack := [] }
    ({ r.1 with nodes := r.1.nodes ++ [(unique_name, r.2)] }, r.2)

/-- `DAGRegistry.input(name, dt, value)`: always creates a fresh settable
dependency-free node named `"{name}_{dt}"`, applies the initial value via
`set_value` when provided, and stores the new node in `input_nodes[name][dt]`
and `nodes[node_name]` (overwriting any previous binding). -/
def inputCall {V : Type} (f : Nat) (reg : Registry V) (name dtKey : String)
    (value : Option V) : Registry V × Nat :=
  let node_name := name ++ "_" ++ dtKey
  let r := allocNode reg
    { name := node_name, func := NodeFunc.fn (fun _ => none), dependencies := [],
      dependents := [], mode := ExecutionMode.eager, can_set := true, result := none,
      is_computed := false, is_dirty := true, override_stack := [] }
  let reg2 := match value with
    | some _ => (setValue f r.1 r.2 value).1
    | none => r.1
  ({ reg2 with input_nodes := aupsert reg2.input_nodes (name, dtKey) r.2,
               nodes := aupsert reg2.nodes node_name r.2 }, r.2)

/-- `DAGRegistry.get_input(name, dt)`. -/
def getInput {V : Type} (reg : Registry V) (name dtKey : String) : Option Nat :=
  alook reg.input_nodes (name, dtKey)

/-! ### The graph executor (`DAG`) -/

/-- Dependency names of the node stored at id `i`. -/
def depNamesOf {V : Type} (reg : Registry V) (i : Nat) : List String :=
  (reg.heap i).dependencies.map (fun d => (reg.heap d).name)

/-- The data `_build_graph` reads from the registry: each registered name, in
registration order, paired with its dependency-name list. -/
def regProfile {V : Type} (reg : Registry V) : List (String × List String) :=
  reg.nodes.map (fun p => (p.1, depNamesOf reg p.2))

/-- `adjacency_list[dep.name].append(node_name)`. -/
def appendAt (l : List (String × List String)) (k : String) (v : String) :
    List (String × List String) :=
  l.map (fun p => if p.1 = k then (p.1, p.2 ++ [v]) else p)

/-- The adjacency list of `_build_graph`: initialize every name to `[]`, then for
each node in registration order append its name to each dependency's list. -/
def buildAdj (prof : List (String × List String)) : List (String × List String) :=
  prof.foldl (fun adj p => p.2.foldl (fun a d => appendAt a d p.1) adj)
    (prof.map (fun p => (p.1, ([] : List String))))

/-- The in-degree map of `_build_graph`: each node's dependency count (as an
integer, since Kahn's loop decrements without a lower bound). -/
def buildIndeg (prof : List (String × List String)) : List (String × Int) :=
  prof.map (fun p => (p.1, (p.2.length : Int)))

/-- `in_degree[dependent_node] -= 1` (applied to the entry of that name). -/
def decAt (l : List (String × Int)) (k : String) : List (String × Int) :=
  l.map (fun p => if p.1 = k then (p.1, p.2 - 1) else p)

/-- The inner loop of Kahn's algorithm: decrement the in-degree of every
dependent of the current node, enqueueing those that reach zero (FIFO: appended
at the end of the queue). -/
def processAdj : List String → List (String × Int) → List String →
    List (String × Int) × List String
  | [], indeg, queue => (indeg, queue)
  | m :: rest, indeg, queue =>
    let indeg1 := decAt indeg m
    let queue1 := match alook indeg1 m with
      | some d => if d = 0 then queue ++ [m] else queue
      | none => queue
    processAdj rest indeg1 queue1

/-- Sum of the positive parts of the in-degree map (termination measure). -/
def sumPos (l : List (String × Int)) : Nat := (l.map (fun p => p.2.toNat)).sum

/-- Kahn's main loop (`while queue:`) with fuel.  Any fuel at least
`queue.length + sumPos indeg` computes the exact fixpoint (proved below), and
`topoProf` supplies such a fuel, so this is a faithful rendering of the
terminating Python loop. -/
def kahnLoopF (adj : List (String × List String)) :
    Nat → List String → List (String × Int) → List String → List String
  | 0, _, _, sortedAcc => sortedAcc
  | _ + 1, [], _, sortedAcc => sortedAcc
  | f + 1, q :: rest, indeg, sortedAcc =>
    let r := processAdj ((alook adj q).getD []) indeg rest
    kahnLoopF adj f r.2 r.1 (sortedAcc ++ [q])

/-- The run of Kahn's loop performed by `_topological_sort`: queue seeded with
the zero-in-degree names in registration order, enough fuel for the whole loop. -/
def kahnRun (prof : List (String × List String)) : List String :=
  let indeg := buildIndeg prof
  kahnLoopF (buildAdj prof) (prof.length + sumPos indeg)
    ((indeg.filter (fun p => p.2 = 0)).map (fun p => p.1)) indeg []

/-- `DAG._topological_sort`, computed from the registry profile.  On failure the
error carries the unreached node names (Python raises
`ValueError("Cycle detected… Nodes in cycle: {missing}")`). -/
def topoProf (prof : List (String × List String)) : Except (List String) (List String) :=
  let sortedNodes := kahnRun prof
  if sortedNodes.length ≠ prof.length then
    Except.error ((prof.map (fun p => p.1)).filter (fun n => decide (n ∉ sortedNodes)))
  else Except.ok sortedNodes

/-- `DAG._topological_sort` on a registry. -/
def topologicalSort {V : Type} (reg : Registry V) : Except (List String) (List String) :=
  topoProf (regProfile reg)

/-- One step of the eager pass: look the name up, and `compute()` the node when
it is EAGER and not already computed, recording the direct invocation. -/
def eagerStep {V : Type} (f : Nat) (st : Registry V × List Nat) (node_name : String) :
    Registry V × List Nat :=
  match alook st.1.nodes node_name with
  | none => st
  | some i =>
    let node := st.1.heap i
    if node.mode = ExecutionMode.eager ∧ node.is_computed = false then
      ((computeF f st.1 i false).1, st.2 ++ [i])
    else st

/-- `DAG.run_eager_nodes`: a no-op when the pass already ran; on a cycle error the
pass logs and returns without setting the flag; otherwise every EAGER
not-yet-computed node is computed in topological order and the flag is set.
Also returns the ids on which `compute()` was invoked directly by the pass. -/
def runEagerNodes {V : Type} (f : Nat) (d : Dag V) : Dag V × List Nat :=
  if d.eager_executed then (d, [])
  else
    match topologicalSort d.reg with
    | Except.error _ => (d, [])
    | Except.ok order =>
      let r := order.foldl (eagerStep f) (d.reg, [])
      ({ reg := r.1, eager_executed := true }, r.2)

/-- `DAG.get_node_value`. -/
def getNodeValue {V : Type} (f : Nat) (d : Dag V) (name : String) :
    Except String (Dag V × Option V) :=
  match alook d.reg.nodes name with
  | none => Except.error ("Node " ++ name ++ " not found in DAG")
  | some i =>
    let r := getValueF f d.reg i
    Except.ok ({ d with reg := r.1 }, r.2.1)

/-- Insertion into a name-sorted list (for `sorted(self.registry.nodes.items())`). -/
def insertByName (p : String × Nat) : List (String × Nat) → List (String × Nat)
  | [] => [p]
  | q :: rest => if p.1 ≤ q.1 then p :: q :: rest else q :: insertByName p rest

/-- Name-sorted registry entries. -/
def sortByName (l : List (String × Nat)) : List (String × Nat) :=
  l.foldr insertByName []

/-- The state effect of `DAG._print_state`: it calls `get_value()` on every node
that is currently computed (in name order), which can recompute dirty
LAZY/CACHED nodes as a side effect of printing. -/
def printStateEffect {V : Type} (f : Nat) (reg : Registry V) : Registry V :=
  (sortByName reg.nodes).foldl
    (fun r p => if (r.heap p.2).is_computed then (getValueF f r p.2).1 else r) reg

/-- `DAG.execute(target_node)`: unknown-target error, then the eager pass, then
the target's value, then `_print_state`; the captured value is returned. -/
def executeDag {V : Type} (f : Nat) (d : Dag V) (target : String) :
    Except String (Dag V × Option V) :=
  match alook d.reg.nodes target with
  | none => Except.error ("Target node " ++ target ++ " not found in DAG")
  | some _ =>
    let d1 := (runEagerNodes f d).1
    match getNodeValue f d1 target with
    | Except.error e => Except.error e
    | Except.ok r => Except.ok ({ r.1 with reg := printStateEffect f r.1.reg }, r.2)

/-! ### Graph-level predicates used to state the claims -/

/-- The registered node names, in registration order. -/
def namesOf {V : Type} (reg : Registry V) : List String := reg.nodes.map (fun p => p.1)

/-- The dependency names of the registered node called `n` (empty if absent). -/
def depsOfName {V : Type} (reg : Registry V) (n : String) : List String :=
  match alook reg.nodes n with
  | some i => depNamesOf reg i
  | none => []

/-- The name-level dependency edge `a → b`: the registered node `b` lists a node
named `a` among its dependencies (the edge `dep → N` of the specification). -/
def EdgeN {V : Type} (reg : Registry V) (a b : String) : Prop :=
  b ∈ namesOf reg ∧ a ∈ depsOfName reg b

/-- The registry's dependency graph has a (nonempty) cycle. -/
def HasCycle {V : Type} (reg : Registry V) : Prop :=
  ∃ a, Relation.TransGen (EdgeN reg) a a

/-- A registered name is "unreached" by the sort exactly when it sits on a
dependency cycle or (transitively) depends on a node that does. -/
def OnOrAfterCycle {V : Type} (reg : Registry V) (n : String) : Prop :=
  ∃ c, Relation.TransGen (EdgeN reg) c c ∧
    (c = n ∨ Relation.TransGen (EdgeN reg) c n)

/-- Well-formedness of a registry, as guaranteed by the registration API: names
are unique dict keys, each entry's heap node carries its key as `name`, and
every dependency of a registered node is itself registered (under its name).
Python code violating this crashes with `KeyError` in `_build_graph`. -/
def WFreg {V : Type} (reg : Registry V) : Prop :=
  (namesOf reg).Nodup ∧
  (∀ p ∈ reg.nodes, (reg.heap p.2).name = p.1) ∧
  (∀ p ∈ reg.nodes, ∀ d ∈ (reg.heap p.2).dependencies, (reg.heap d).name ∈ namesOf reg)

instance {V : Type} (reg : Registry V) : Decidable (WFreg reg) := by
  unfold WFreg; infer_instance

/-- The keys of a profile (registered names, in order). -/
def profKeys (prof : List (String × List String)) : List String :=
  prof.map Prod.fst

/-- The dependency-name list of `b` in a profile (empty if absent). -/
def depsP (prof : List (String × List String)) (b : String) : List String :=
  (alook prof b).getD []

/-- Profile-level dependency edge `a → b`. -/
def EdgeP (prof : List (String × List String)) (a b : String) : Prop :=
  b ∈ profKeys prof ∧ a ∈ depsP prof b

/-- Profile well-formedness: unique names, dependencies of registered nodes are
registered. -/
def ProfWF (prof : List (String × List String)) : Prop :=
  (profKeys prof).Nodup ∧ ∀ p ∈ prof, ∀ a ∈ p.2, a ∈ profKeys prof

/-- The flattened `(dep.name, node_name)` insertions performed by `_build_graph`,
in order. -/
def edgePairs (prof : List (String × List String)) : List (String × String) :=
  prof.flatMap (fun p => p.2.map (fun d => (d, p.1)))

/-- Number of dependencies of `b` whose source is not yet in `sorted`. -/
def remCount (prof : List (String × List String)) (sorted : List String)
    (b : String) : Nat :=
  ((depsP prof b).filter (fun a => decide (a ∉ sorted))).length

/-- A list is a topological prefix: every element's dependencies precede it. -/
inductive TopoGood (dp : String → List String) : List String → Prop
  | nil : TopoGood dp []
  | snoc {l : List String} {b : String} : TopoGood dp l → (∀ a ∈ dp b, a ∈ l) →
      TopoGood dp (l ++ [b])

/-- The loop invariant of Kahn's algorithm. -/
def KahnInv (prof : List (String × List String)) (sorted queue : List String)
    (indeg : List (String × Int)) : Prop :=
  (sorted ++ queue).Nodup ∧
  (∀ x ∈ sorted ++ queue, x ∈ profKeys prof) ∧
  (∀ b ∈ profKeys prof, alook indeg b = some ((remCount prof sorted b : Int))) ∧
  (∀ b, b ∉ profKeys prof → alook indeg b = none) ∧
  (∀ b ∈ profKeys prof, (b ∈ sorted ++ queue ↔ remCount prof sorted b = 0)) ∧
  TopoGood (depsP prof) sorted

/-- What Kahn's loop guarantees about its output. -/
def KahnOut (prof : List (String × List String)) (out : List String) : Prop :=
  out.Nodup ∧ (∀ x ∈ out, x ∈ profKeys prof) ∧ TopoGood (depsP prof) out ∧
  (∀ b ∈ profKeys prof, (b ∈ out ↔ ∀ a ∈ depsP prof b, a ∈ out))

/-- The seed queue of the sort: zero-in-degree names in registration order. -/
def profSeeds (prof : List (String × List String)) : List String :=
  ((buildIndeg prof).filter (fun p => p.2 = 0)).map (fun p => p.1)

/-- Registered names with no dependencies, in registration order. -/
def zeroDepNames {V : Type} (reg : Registry V) : List String :=
  (reg.nodes.filter (fun p => decide ((reg.heap p.2).dependencies = []))).map Prod.fst

/-- The eager pass's selection criterion, read off the starting registry: the
name resolves to a node whose mode is EAGER and which is not yet computed. -/
def eagerPick {V : Type} (reg : Registry V) (nm : String) : Bool :=
  match alook reg.nodes nm with
  | some i => decide ((reg.heap i).mode = ExecutionMode.eager ∧
      (reg.heap i).is_computed = false)
  | none => false

/-- The ids the eager pass invokes `compute()` on: the EAGER, not-yet-computed
nodes of the order, kept in topological order. -/
def eagerPlan {V : Type} (reg : Registry V) (order : List String) : List Nat :=
  (order.filter (eagerPick reg)).filterMap (alook reg.nodes)

/-- Id-level dependency step: `b` is one of `a`'s dependencies. -/
def DepStep {V : Type} (reg : Registry V) (a b : Nat) : Prop :=
  b ∈ (reg.heap a).dependencies

/-- Paths along the `dependents` back-links, with their length, relative to an
arbitrary dependents function (so the predicate is stable under state updates
that keep the wiring). -/
inductive DepdPath (dep : Nat → List Nat) : Nat → Nat → Nat → Prop
  | single {i j : Nat} : j ∈ dep i → DepdPath dep i j 1
  | cons {i m j k : Nat} : m ∈ dep i → DepdPath dep m j k → DepdPath dep i j (k + 1)

/-- The dependents function of a registry. -/
def depdOf {V : Type} (reg : Registry V) : Nat → List Nat :=
  fun i => (reg.heap i).dependents

/-- A node is a (strict) transitive dependent of another. -/
def TransDependent {V : Type} (reg : Registry V) (i j : Nat) : Prop :=
  ∃ k, DepdPath (depdOf reg) i j k

/-- Structural node fields that evaluation must never change. -/
def sameStruct {V : Type} (n m : Node V) : Prop :=
  m.name = n.name ∧ m.func = n.func ∧ m.dependencies = n.dependencies ∧
  m.dependents = n.dependents ∧ m.mode = n.mode ∧ m.can_set = n.can_set ∧
  m.override_stack = n.override_stack

/-- Node fields other than the dirty flag. -/
def sameExceptDirty {V : Type} (n m : Node V) : Prop :=
  m.name = n.name ∧ m.func = n.func ∧ m.dependencies = n.dependencies ∧
  m.dependents = n.dependents ∧ m.mode = n.mode ∧ m.can_set = n.can_set ∧
  m.result = n.result ∧ m.is_computed = n.is_computed ∧
  m.override_stack = n.override_stack

/-! ### Concrete fixtures used to instantiate the theorems -/

/-- A blank node (fresh `TaskNode` state), used as heap filler. -/
def blankNode : Node Int :=
  { name := "", func := NodeFunc.fn (fun _ => none), dependencies := [],
    dependents := [], mode := ExecutionMode.eager, can_set := false, result := none,
    is_computed := false, is_dirty := true, override_stack := [] }

/-- Fixture: node 0 depends on the never-set input node 1. -/
def regNotReady : Registry Int :=
  { heap := fun j =>
      if j = 0 then
        { name := "n", func := NodeFunc.fn (fun vs => some (vs.foldl (· + ·) 0)),
          dependencies := [1], dependents := [], mode := ExecutionMode.eager,
          can_set := false, result := none, is_computed := false, is_dirty := true,
          override_stack := [] }
      else if j = 1 then
        { name := "b", func := NodeFunc.fn (fun _ => none), dependencies := [],
          dependents := [0], mode := ExecutionMode.eager, can_set := true,
          result := none, is_computed := false, is_dirty := true, override_stack := [] }
      else blankNode,
    nextId := 2, nodes := [("b", 1), ("n", 0)], input_nodes := [], cached_values := [] }

/-- Fixture: a computed, clean, override-free node. -/
def regMemo : Registry Int :=
  { heap := fun j =>
      if j = 0 then
        { name := "m", func := NodeFunc.fn (fun _ => some 3), dependencies := [],
          dependents := [], mode := ExecutionMode.lazy, can_set := false,
          result := some 7, is_computed := true, is_dirty := false, override_stack := [] }
      else blankNode,
    nextId := 1, nodes := [("m", 0)], input_nodes := [], cached_values := [] }

/-- Fixture: computed clean node 0 with dependent 1 (no dependent cycles). -/
def regOvr : Registry Int :=
  { heap := fun j =>
      if j = 0 then
        { name := "s", func := NodeFunc.fn (fun _ => some 5), dependencies := [],
          dependents := [1], mode := ExecutionMode.eager, can_set := true,
          result := some 5, is_computed := true, is_dirty := false, override_stack := [] }
      else if j = 1 then
        { name := "d", func := NodeFunc.fn (fun vs => some (vs.foldl (· + ·) 0)),
          dependencies := [0], dependents := [], mode := ExecutionMode.eager,
          can_set := false, result := some 5, is_computed := true, is_dirty := false,
          override_stack := [] }
      else blankNode,
    nextId := 2, nodes := [("s", 0), ("d", 1)], input_nodes := [], cached_values := [] }

/-- Fixture for `set_value`: settable inputs 0 (set) and 1 (never set), and a
clean computed dependent 2 reading both. -/
def regSet : Registry Int :=
  { heap := fun j =>
      if j = 0 then
        { name := "a", func := NodeFunc.fn (fun _ => none), dependencies := [],
          dependents := [2], mode := ExecutionMode.eager, can_set := true,
          result := some 1, is_computed := true, is_dirty := false, override_stack := [] }
      else if j = 1 then
        { name := "b", func := NodeFunc.fn (fun _ => none), dependencies := [],
          dependents := [2], mode := ExecutionMode.eager, can_set := true,
          result := none, is_computed := false, is_dirty := true, override_stack := [] }
      else if j = 2 then
        { name := "n", func := NodeFunc.fn (fun vs => some (vs.foldl (· + ·) 0)),
          dependencies := [0, 1], dependents := [], mode := ExecutionMode.eager,
          can_set := false, result := some 1, is_computed := true, is_dirty := false,
          override_stack := [] }
      else blankNode,
    nextId := 3, nodes := [("a", 0), ("b", 1), ("n", 2)], input_nodes := [],
    cached_values := [] }

/-- Fixture for the eager pass: eager source 0, lazy source 1, eager consumer 2
of the lazy source, already-computed eager node 3. -/
def regEager : Registry Int :=
  { heap := fun j =>
      if j = 0 then
        { name := "e1", func := NodeFunc.fn (fun _ => some 10), dependencies := [],
          dependents := [], mode := ExecutionMode.eager, can_set := false,
          result := none, is_computed := false, is_dirty := true, override_stack := [] }
      else if j = 1 then
        { name := "l1", func := NodeFunc.fn (fun _ => some 100), dependencies := [],
          dependents := [2], mode := ExecutionMode.lazy, can_set := false,
          result := none, is_computed := false, is_dirty := true, override_stack := [] }
      else if j = 2 then
        { name := "e3", func := NodeFunc.fn (fun vs => some (2 * vs.foldl (· + ·) 0)),
          dependencies := [1], dependents := [], mode := ExecutionMode.eager,
          can_set := false, result := none, is_computed := false, is_dirty := true,
          override_stack := [] }
      else if j = 3 then
        { name := "e0", func := NodeFunc.fn (fun _ => some 1), dependencies := [],
          dependents := [], mode := ExecutionMode.eager, can_set := false,
          result := some 1, is_computed := true, is_dirty := false, override_stack := [] }
      else blankNode,
    nextId := 4, nodes := [("e1", 0), ("l1", 1), ("e3", 2), ("e0", 3)],
    input_nodes := [], cached_values := [] }

/-- Fixture: the eager-pass executor over `regEager`. -/
def dagEager : Dag Int := { reg := regEager, eager_executed := false }

/-- Fixture: a registry with a dependency cycle `x ↔ y` plus a computed input `t`. -/
def regCyc : Registry Int :=
  { heap := fun j =>
      if j = 0 then
        { name := "x", func := NodeFunc.fn (fun _ => some 0), dependencies := [1],
          dependents := [1], mode := ExecutionMode.eager, can_set := false,
          result := none, is_computed := false, is_dirty := true, override_stack := [] }
      else if j = 1 then
        { name := "y", func := NodeFunc.fn (fun _ => some 0), dependencies := [0],
          dependents := [0], mode := ExecutionMode.eager, can_set := false,
          result := none, is_computed := false, is_dirty := true, override_stack := [] }
      else if j = 2 then
        { name := "t", func := NodeFunc.fn (fun _ => none), dependencies := [],
          dependents := [], mode := ExecutionMode.eager, can_set := true,
          result := some 42, is_computed := true, is_dirty := false, override_stack := [] }
      else blankNode,
    nextId := 3, nodes := [("x", 0), ("y", 1), ("t", 2)], input_nodes := [],
    cached_values := [] }

/-- Fixture: the executor over the cyclic registry, eager pass not yet run. -/
def dagCyc : Dag Int := { reg := regCyc, eager_executed := false }

/-- Fixture: an acyclic two-node registry (`a`, then `b` depending on `a`). -/
def regAcy : Registry Int :=
  { heap := fun j =>
      if j = 0 then
        { name := "a", func := NodeFunc.fn (fun _ => some 1), dependencies := [],
          dependents := [1], mode := ExecutionMode.eager, can_set := false,
          result := none, is_computed := false, is_dirty := true, override_stack := [] }
      else if j = 1 then
        { name := "b", func := NodeFunc.fn (fun vs => some (vs.foldl (· + ·) 0)),
          dependencies := [0], dependents := [], mode := ExecutionMode.lazy,
          can_set := false, result := none, is_computed := false, is_dirty := true,
          override_stack := [] }
      else blankNode,
    nextId := 2, nodes := [("a", 0), ("b", 1)], input_nodes := [], cached_values := [] }

/-- Fixture: the empty registry. -/
def regEmpty : Registry Int :=
  { heap := fun _ => blankNode, nextId := 0, nodes := [], input_nodes := [],
    cached_values := [] }

/-- Fixture: a computed node holding a result, for `reset`. -/
def nodeComputed : Node Int :=
  { name := "c", func := NodeFunc.fn (fun _ => some 5), dependencies := [],
    dependents := [], mode := ExecutionMode.eager, can_set := true, result := some 5,
    is_computed := true, is_dirty := false, override_stack := [] }

/-- Fixture: an override-scope body that finishes normally and leaves the
registry untouched. -/
def okBody : Registry Int → Registry Int × Except Unit Nat :=
  fun r => (r, Except.ok 0)

/-- Fixture: an uncomputed node with an active override, for `reset`. -/
def nodeOverridden : Node Int :=
  { name := "o", func := NodeFunc.fn (fun _ => none), dependencies := [],
    dependents := [], mode := ExecutionMode.eager, can_set := true, result := none,
    is_computed := false, is_dirty := true, override_stack := [some 9] }

/-! ### Basic lemmas -/

variable {V : Type}

@[simp] theorem updHeap_heap (reg : Registry V) (i : Nat) (g : Node V → Node V) (j : Nat) :
    (updHeap reg i g).heap j = if j = i then g (reg.heap j) else reg.heap j := rfl

@[simp] theorem updHeap_nodes (reg : Registry V) (i : Nat) (g : Node V → Node V) :
    (updHeap reg i g).nodes = reg.nodes := rfl

@[simp] theorem updHeap_inputs (reg : Registry V) (i : Nat) (g : Node V → Node V) :
    (updHeap reg i g).input_nodes = reg.input_nodes := rfl

@[simp] theorem updHeap_nextId (reg : Registry V) (i : Nat) (g : Node V → Node V) :
    (updHeap reg i g).nextId = reg.nextId := rfl

@[simp] theorem updHeap_cached (reg : Registry V) (i : Nat) (g : Node V → Node V) :
    (updHeap reg i g).cached_values = reg.cached_values := rfl

theorem alook_aupsert {κ α : Type} [DecidableEq κ] (l : List (κ × α)) (k : κ) (v : α) :
    alook (aupsert l k v) k = some v := by
  induction l with
  | nil => simp [alook, aupsert]
  | cons p rest ih =>
    simp only [aupsert]
    split
    · simp [alook]
    · rename_i h
      simp only [alook]
      rw [if_neg h]
      exact ih

theorem alook_append_of_none {κ α : Type} [DecidableEq κ] (l1 l2 : List (κ × α)) (k : κ)
    (h : alook l1 k = none) : alook (l1 ++ l2) k = alook l2 k := by
  induction l1 with
  | nil => simp
  | cons p rest ih =>
    simp only [alook] at h ⊢
    split
    · rename_i hp
      rw [if_pos hp] at h
      exact absurd h (by simp)
    · rename_i hp
      rw [if_neg hp] at h
      exact ih h

theorem alook_append_of_some {κ α : Type} [DecidableEq κ] (l1 l2 : List (κ × α)) (k : κ)
    (v : α) (h : alook l1 k = some v) : alook (l1 ++ l2) k = some v := by
  induction l1 with
  | nil => simp [alook] at h
  | cons p rest ih =>
    simp only [alook] at h ⊢
    split
    · rename_i hp
      rw [if_pos hp] at h
      exact h
    · rename_i hp
      rw [if_neg hp] at h
      exact ih h

theorem sameStruct_refl (n : Node V) : sameStruct n n := by
  simp [sameStruct]

theorem sameStruct_trans {a b c : Node V} (h1 : sameStruct a b) (h2 : sameStruct b c) :
    sameStruct a c := by
  obtain ⟨e1, e2, e3, e4, e5, e6, e7⟩ := h1
  obtain ⟨g1, g2, g3, g4, g5, g6, g7⟩ := h2
  exact ⟨g1.trans e1, g2.trans e2, g3.trans e3, g4.trans e4, g5.trans e5,
    g6.trans e6, g7.trans e7⟩

/-! ### Evaluator frame lemmas -/

/-- One `runDeps` pass preserves any pointwise heap relation preserved by `gv`,
by transitivity. -/
theorem runDeps_struct (gv : Registry V → Nat → EvalOut V)
    (h : ∀ reg i j, sameStruct (reg.heap j) ((gv reg i).1.heap j)) :
    ∀ (ids : List Nat) (reg : Registry V) (j : Nat),
      sameStruct (reg.heap j) ((runDeps gv reg ids).1.heap j) := by
  intro ids
  induction ids with
  | nil => intro reg j; simp [runDeps]; exact sameStruct_refl _
  | cons d rest ih =>
    intro reg j
    simp only [runDeps]
    exact sameStruct_trans (h reg d j) (ih (gv reg d).1 j)

@[simp] theorem applyFunc_heap (reg : Registry V) (i : Nat) (nf : NodeFunc V)
    (vals : List V) : (applyFunc reg i nf vals).1.heap = reg.heap := by
  cases nf with
  | fn f => rfl
  | cachedLoad key u =>
    simp only [applyFunc]
    split <;> rfl

@[simp] theorem applyFunc_nodes (reg : Registry V) (i : Nat) (nf : NodeFunc V)
    (vals : List V) : (applyFunc reg i nf vals).1.nodes = reg.nodes := by
  cases nf with
  | fn f => rfl
  | cachedLoad key u =>
    simp only [applyFunc]
    split <;> rfl

@[simp] theorem applyFunc_inputs (reg : Registry V) (i : Nat) (nf : NodeFunc V)
    (vals : List V) : (applyFunc reg i nf vals).1.input_nodes = reg.input_nodes := by
  cases nf with
  | fn f => rfl
  | cachedLoad key u =>
    simp only [applyFunc]
    split <;> rfl

@[simp] theorem applyFunc_nextId (reg : Registry V) (i : Nat) (nf : NodeFunc V)
    (vals : List V) : (applyFunc reg i nf vals).1.nextId = reg.nextId := by
  cases nf with
  | fn f => rfl
  | cachedLoad key u =>
    simp only [applyFunc]
    split <;> rfl

/-- Evaluation never changes a node's structural fields (name, function,
dependencies, dependents, mode, can_set, override stack). -/
theorem evalStruct (f : Nat) :
    (∀ (reg : Registry V) i force j,
      sameStruct (reg.heap j) ((computeF f reg i force).1.heap j)) ∧
    (∀ (reg : Registry V) i j,
      sameStruct (reg.heap j) ((getValueF f reg i).1.heap j)) := by
  induction f with
  | zero =>
    constructor
    · intro reg i force j; simp [computeF]; exact sameStruct_refl _
    · intro reg i j; simp [getValueF]; exact sameStruct_refl _
  | succ f ih =>
    obtain ⟨ihc, ihg⟩ := ih
    constructor
    · intro reg i force j
      rw [computeF]
      dsimp only
      split
      · exact sameStruct_refl _
      · have hrs := runDeps_struct (getValueF f) ihg (reg.heap i).dependencies reg j
        split
        · exact hrs
        · simp only [updHeap_heap, applyFunc_heap]
          split
          · rename_i hj
            subst hj
            refine sameStruct_trans hrs ?_
            simp [sameStruct]
          · exact hrs
    · intro reg i j
      rw [getValueF]
      dsimp only
      split
      · exact sameStruct_refl _
      · split
        · exact ihc reg i false j
        · exact sameStruct_refl _

theorem computeF_struct (f : Nat) (reg : Registry V) (i : Nat) (force : Bool) (j : Nat) :
    sameStruct (reg.heap j) ((computeF f reg i force).1.heap j) :=
  (evalStruct f).1 reg i force j

theorem getValueF_struct (f : Nat) (reg : Registry V) (i : Nat) (j : Nat) :
    sameStruct (reg.heap j) ((getValueF f reg i).1.heap j) :=
  (evalStruct f).2 reg i j

theorem getValueF_mode (f : Nat) (reg : Registry V) (i j : Nat) :
    ((getValueF f reg i).1.heap j).mode = (reg.heap j).mode :=
  (getValueF_struct f reg i j).2.2.2.2.1

theorem computeF_mode (f : Nat) (reg : Registry V) (i : Nat) (force : Bool) (j : Nat) :
    ((computeF f reg i force).1.heap j).mode = (reg.heap j).mode :=
  (computeF_struct f reg i force j).2.2.2.2.1

/-- Evaluation leaves the registry's tables (other than `cached_values`) alone. -/
theorem evalTables (f : Nat) :
    (∀ (reg : Registry V) i force,
      (computeF f reg i force).1.nodes = reg.nodes ∧
      (computeF f reg i force).1.input_nodes = reg.input_nodes ∧
      (computeF f reg i force).1.nextId = reg.nextId) ∧
    (∀ (reg : Registry V) i,
      (getValueF f reg i).1.nodes = reg.nodes ∧
      (getValueF f reg i).1.input_nodes = reg.input_nodes ∧
      (getValueF f reg i).1.nextId = reg.nextId) := by
  induction f with
  | zero =>
    constructor
    · intro reg i force; simp [computeF]
    · intro reg i; simp [getValueF]
  | succ f ih =>
    obtain ⟨ihc, ihg⟩ := ih
    have hrun : ∀ (ids : List Nat) (reg : Registry V),
        (runDeps (getValueF f) reg ids).1.nodes = reg.nodes ∧
        (runDeps (getValueF f) reg ids).1.input_nodes = reg.input_nodes ∧
        (runDeps (getValueF f) reg ids).1.nextId = reg.nextId := by
      intro ids
      induction ids with
      | nil => intro reg; simp [runDeps]
      | cons d rest ihl =>
        intro reg
        simp only [runDeps]
        obtain ⟨a1, a2, a3⟩ := ihg reg d
        obtain ⟨b1, b2, b3⟩ := ihl (getValueF f reg d).1
        exact ⟨b1.trans a1, b2.trans a2, b3.trans a3⟩
    constructor
    · intro reg i force
      rw [computeF]
      dsimp only
      split
      · exact ⟨rfl, rfl, rfl⟩
      · obtain ⟨a1, a2, a3⟩ := hrun (reg.heap i).dependencies reg
        split
        · exact ⟨a1, a2, a3⟩
        · simp only [updHeap_nodes, updHeap_inputs, updHeap_nextId,
            applyFunc_nodes, applyFunc_inputs, applyFunc_nextId]
          exact ⟨a1, a2, a3⟩
    · intro reg i
      rw [getValueF]
      dsimp only
      split
      · exact ⟨rfl, rfl, rfl⟩
      · split
        · exact ihc reg i false
        · exact ⟨rfl, rfl, rfl⟩

theorem getValueF_nodes (f : Nat) (reg : Registry V) (i : Nat) :
    (getValueF f reg i).1.nodes = reg.nodes :=
  ((evalTables f).2 reg i).1

theorem computeF_nodes (f : Nat) (reg : Registry V) (i : Nat) (force : Bool) :
    (computeF f reg i force).1.nodes = reg.nodes :=
  ((evalTables f).1 reg i force).1

/-- Evaluation can set `is_computed` only on LAZY/CACHED nodes reached through
`get_value`, or on the directly computed node itself: the computed flag of every
other EAGER node is untouched. -/
theorem evalEager (f : Nat) :
    (∀ (reg : Registry V) i force j, j ≠ i → (reg.heap j).mode = ExecutionMode.eager →
      ((computeF f reg i force).1.heap j).is_computed = (reg.heap j).is_computed) ∧
    (∀ (reg : Registry V) i j, (reg.heap j).mode = ExecutionMode.eager →
      ((getValueF f reg i).1.heap j).is_computed = (reg.heap j).is_computed) := by
  induction f with
  | zero =>
    constructor
    · intro reg i force j _ _; simp [computeF]
    · intro reg i j _; simp [getValueF]
  | succ f ih =>
    obtain ⟨ihc, ihg⟩ := ih
    have hrun : ∀ (ids : List Nat) (reg : Registry V) (j : Nat),
        (reg.heap j).mode = ExecutionMode.eager →
        ((runDeps (getValueF f) reg ids).1.heap j).is_computed = (reg.heap j).is_computed := by
      intro ids
      induction ids with
      | nil => intro reg j _; simp [runDeps]
      | cons d rest ihl =>
        intro reg j hm
        simp only [runDeps]
        have hm2 : ((getValueF f reg d).1.heap j).mode = ExecutionMode.eager := by
          rw [getValueF_mode]; exact hm
        rw [ihl (getValueF f reg d).1 j hm2, ihg reg d j hm]
    constructor
    · intro reg i force j hj hm
      rw [computeF]
      dsimp only
      split
      · rfl
      · split
        · exact hrun (reg.heap i).dependencies reg j hm
        · simp only [updHeap_heap, applyFunc_heap]
          rw [if_neg hj]
          exact hrun (reg.heap i).dependencies reg j hm
    · intro reg i j hm
      rw [getValueF]
      dsimp only
      split
      · rfl
      · split
        · rename_i hcond
          have hij : j ≠ i := by
            intro h
            subst h
            rcases hcond.2 with h2 | h2 <;> rw [hm] at h2 <;> exact ExecutionMode.noConfusion h2
          exact ihc reg i false j hij hm
        · rfl

/-- Frame lemma: evaluation started at `i` does not touch — and never invokes —
any node `j` that is not reachable from `i` along dependency edges. -/
theorem evalFrame (dep : Nat → List Nat) (f : Nat) :
    (∀ (reg : Registry V) i force j,
      (∀ a, (reg.heap a).dependencies = dep a) →
      ¬ Relation.ReflTransGen (fun x y => y ∈ dep x) i j →
      (computeF f reg i force).1.heap j = reg.heap j ∧
      j ∉ (computeF f reg i force).2.2) ∧
    (∀ (reg : Registry V) i j,
      (∀ a, (reg.heap a).dependencies = dep a) →
      ¬ Relation.ReflTransGen (fun x y => y ∈ dep x) i j →
      (getValueF f reg i).1.heap j = reg.heap j ∧
      j ∉ (getValueF f reg i).2.2) := by
  induction f with
  | zero =>
    constructor
    · intro reg i force j _ _; simp [computeF]
    · intro reg i j _ _; simp [getValueF]
  | succ f ih =>
    obtain ⟨ihc, ihg⟩ := ih
    have hdepstable : ∀ (reg : Registry V) i,
        (∀ a, (reg.heap a).dependencies = dep a) →
        ∀ a, ((getValueF f reg i).1.heap a).dependencies = dep a := by
      intro reg i hd a
      rw [(getValueF_struct f reg i a).2.2.1]
      exact hd a
    have hrun : ∀ (ids : List Nat) (reg : Registry V) (j : Nat),
        (∀ a, (reg.heap a).dependencies = dep a) →
        (∀ d ∈ ids, ¬ Relation.ReflTransGen (fun x y => y ∈ dep x) d j) →
        (runDeps (getValueF f) reg ids).1.heap j = reg.heap j ∧
        j ∉ (runDeps (getValueF f) reg ids).2.2 := by
      intro ids
      induction ids with
      | nil => intro reg j _ _; simp [runDeps]
      | cons d rest ihl =>
        intro reg j hd hre
        simp only [runDeps, List.mem_append]
        obtain ⟨e1, e2⟩ := ihg reg d j hd (hre d (by simp))
        obtain ⟨g1, g2⟩ := ihl (getValueF f reg d).1 j (hdepstable reg d hd)
          (fun d' hd' => hre d' (by simp [hd']))
        exact ⟨g1.trans e1, by tauto⟩
    constructor
    · intro reg i force j hd hre
      have hij : j ≠ i := fun h => hre (h ▸ Relation.ReflTransGen.refl)
      have hdeps : ∀ d ∈ (reg.heap i).dependencies,
          ¬ Relation.ReflTransGen (fun x y => y ∈ dep x) d j := by
        intro d hdm hcon
        exact hre (Relation.ReflTransGen.head (by rwa [hd i] at hdm) hcon)
      rw [computeF]
      dsimp only
      split
      · simp
      · obtain ⟨e1, e2⟩ := hrun (reg.heap i).dependencies reg j hd hdeps
        split
        · exact ⟨e1, e2⟩
        · constructor
          · simp only [updHeap_heap, applyFunc_heap]
            rw [if_neg hij]
            exact e1
          · intro hmem
            rcases List.mem_append.mp hmem with h | h
            · exact e2 h
            · cases hnf : (reg.heap i).func with
              | fn g => rw [hnf] at h; simp [applyFunc] at h; exact hij h
              | cachedLoad key u =>
                rw [hnf] at h
                simp only [applyFunc] at h
                rcases halook : alook
                    (runDeps (getValueF f) reg (reg.heap i).dependencies).1.cached_values
                    key with _ | v
                · rw [halook] at h; simp at h; exact hij h
                · rw [halook] at h; simp at h
    · intro reg i j hd hre
      rw [getValueF]
      dsimp only
      split
      · simp
      · split
        · obtain ⟨e1, e2⟩ := ihc reg i false j hd hre
          exact ⟨e1, e2⟩
        · simp

/-! ### Dirty-propagation lemmas -/

theorem sameExceptDirty_refl (n : Node V) : sameExceptDirty n n := by
  simp [sameExceptDirty]

theorem sameExceptDirty_trans {a b c : Node V} (h1 : sameExceptDirty a b)
    (h2 : sameExceptDirty b c) : sameExceptDirty a c := by
  obtain ⟨e1, e2, e3, e4, e5, e6, e7, e8, e9⟩ := h1
  obtain ⟨g1, g2, g3, g4, g5, g6, g7, g8, g9⟩ := h2
  exact ⟨g1.trans e1, g2.trans e2, g3.trans e3, g4.trans e4, g5.trans e5,
    g6.trans e6, g7.trans e7, g8.trans e8, g9.trans e9⟩

/-- `mark_dirty` changes at most the dirty flags. -/
theorem markDirtyF_fields (f : Nat) :
    ∀ (reg : Registry V) (i j : Nat),
      sameExceptDirty (reg.heap j) ((markDirtyF f reg i).heap j) := by
  induction f with
  | zero => intro reg i j; exact sameExceptDirty_refl _
  | succ f ih =>
    intro reg i j
    rw [markDirtyF]
    have hfold : ∀ (ids : List Nat) (r : Registry V),
        sameExceptDirty (r.heap j) ((ids.foldl (markDirtyF f) r).heap j) := by
      intro ids
      induction ids with
      | nil => intro r; exact sameExceptDirty_refl _
      | cons m rest ihl =>
        intro r
        simp only [List.foldl_cons]
        exact sameExceptDirty_trans (ih r m j) (ihl (markDirtyF f r m))
    refine sameExceptDirty_trans ?_ (hfold _ _)
    split
    · exact sameExceptDirty_refl _
    · simp only [updHeap_heap]
      split
      · rename_i hj
        subst hj
        simp [sameExceptDirty]
      · exact sameExceptDirty_refl _

/-- `mark_dirty` leaves the registry's tables alone. -/
theorem markDirtyF_tables (f : Nat) :
    ∀ (reg : Registry V) (i : Nat),
      (markDirtyF f reg i).nodes = reg.nodes ∧
      (markDirtyF f reg i).input_nodes = reg.input_nodes ∧
      (markDirtyF f reg i).nextId = reg.nextId ∧
      (markDirtyF f reg i).cached_values = reg.cached_values := by
  induction f with
  | zero => intro reg i; exact ⟨rfl, rfl, rfl, rfl⟩
  | succ f ih =>
    intro reg i
    rw [markDirtyF]
    have hfold : ∀ (ids : List Nat) (r : Registry V),
        (ids.foldl (markDirtyF f) r).nodes = r.nodes ∧
        (ids.foldl (markDirtyF f) r).input_nodes = r.input_nodes ∧
        (ids.foldl (markDirtyF f) r).nextId = r.nextId ∧
        (ids.foldl (markDirtyF f) r).cached_values = r.cached_values := by
      intro ids
      induction ids with
      | nil => intro r; exact ⟨rfl, rfl, rfl, rfl⟩
      | cons m rest ihl =>
        intro r
        simp only [List.foldl_cons]
        obtain ⟨a1, a2, a3, a4⟩ := ih r m
        obtain ⟨b1, b2, b3, b4⟩ := ihl (markDirtyF f r m)
        exact ⟨b1.trans a1, b2.trans a2, b3.trans a3, b4.trans a4⟩
    split
    · exact hfold _ reg
    · exact hfold _ (updHeap reg i _)

/-- `mark_dirty` never clears a dirty flag. -/
theorem markDirtyF_mono (f : Nat) :
    ∀ (reg : Registry V) (i j : Nat), (reg.heap j).is_dirty = true →
      ((markDirtyF f reg i).heap j).is_dirty = true := by
  induction f with
  | zero => intro reg i j h; exact h
  | succ f ih =>
    intro reg i j h
    rw [markDirtyF]
    have hfold : ∀ (ids : List Nat) (r : Registry V), (r.heap j).is_dirty = true →
        ((ids.foldl (markDirtyF f) r).heap j).is_dirty = true := by
      intro ids
      induction ids with
      | nil => intro r hr; exact hr
      | cons m rest ihl =>
        intro r hr
        simp only [List.foldl_cons]
        exact ihl (markDirtyF f r m) (ih r m j hr)
    refine hfold _ _ ?_
    split
    · exact h
    · simp only [updHeap_heap]
      split
      · rfl
      · exact h

/-- With positive fuel, `mark_dirty` leaves its own node dirty. -/
theorem markDirtyF_self (f : Nat) (hf : 1 ≤ f) (reg : Registry V) (i : Nat) :
    ((markDirtyF f reg i).heap i).is_dirty = true := by
  obtain ⟨f, rfl⟩ : ∃ g, f = g + 1 := ⟨f - 1, by omega⟩
  rw [markDirtyF]
  have hfold : ∀ (ids : List Nat) (r : Registry V), (r.heap i).is_dirty = true →
      ((ids.foldl (markDirtyF f) r).heap i).is_dirty = true := by
    intro ids
    induction ids with
    | nil => intro r hr; exact hr
    | cons m rest ihl =>
      intro r hr
      simp only [List.foldl_cons]
      exact ihl (markDirtyF f r m) (markDirtyF_mono f r m i hr)
  refine hfold _ _ ?_
  split
  · assumption
  · simp

/-- Folding `mark_dirty` over a list never clears a dirty flag. -/
theorem markDirtyFoldl_mono (f : Nat) :
    ∀ (ids : List Nat) (r : Registry V) (j : Nat), (r.heap j).is_dirty = true →
      ((ids.foldl (markDirtyF f) r).heap j).is_dirty = true := by
  intro ids
  induction ids with
  | nil => intro r j h; exact h
  | cons m rest ihl =>
    intro r j h
    simp only [List.foldl_cons]
    exact ihl (markDirtyF f r m) j (markDirtyF_mono f r m j h)

/-- Folding `mark_dirty f` over a list marks `j` dirty as soon as some list
element is `j` itself (with `1 ≤ f`) or reaches `j` along a dependents path
shorter than `f`. -/
theorem markDirtyFoldl_path (dep : Nat → List Nat) (f : Nat)
    (ihf : ∀ (k i j : Nat) (reg : Registry V),
      (∀ a, (reg.heap a).dependents = dep a) →
      DepdPath dep i j k → k < f →
      ((markDirtyF f reg i).heap j).is_dirty = true) :
    ∀ (ids : List Nat) (r : Registry V) (j : Nat),
      (∀ a, (r.heap a).dependents = dep a) →
      (∃ m ∈ ids, (m = j ∧ 1 ≤ f) ∨ ∃ k', DepdPath dep m j k' ∧ k' < f) →
      ((ids.foldl (markDirtyF f) r).heap j).is_dirty = true := by
  intro ids
  induction ids with
  | nil => intro r j _ hm; simp at hm
  | cons m rest ihl =>
    intro r j hr hm
    simp only [List.foldl_cons]
    have hdepNext : ∀ a, ((markDirtyF f r m).heap a).dependents = dep a := by
      intro a
      rw [(markDirtyF_fields f r m a).2.2.2.1]
      exact hr a
    obtain ⟨m', hm', hcase⟩ := hm
    rcases List.mem_cons.mp hm' with h | h
    · subst h
      rcases hcase with ⟨hj, hf⟩ | ⟨k', hp, hk'⟩
      · subst hj
        exact markDirtyFoldl_mono f rest (markDirtyF f r m') m'
          (markDirtyF_self f hf r m')
      · exact markDirtyFoldl_mono f rest (markDirtyF f r m') j
          (ihf k' m' j r hr hp hk')
    · exact ihl (markDirtyF f r m) j hdepNext ⟨m', h, hcase⟩

/-- `mark_dirty` marks every node reachable along `dependents` within the fuel. -/
theorem markDirtyF_path (dep : Nat → List Nat) (f : Nat) :
    ∀ (k i j : Nat) (reg : Registry V),
      (∀ a, (reg.heap a).dependents = dep a) →
      DepdPath dep i j k → k < f →
      ((markDirtyF f reg i).heap j).is_dirty = true := by
  induction f with
  | zero => intro k i j reg _ _ hk; omega
  | succ f ih =>
    intro k i j reg hdep hpath hk
    rw [markDirtyF]
    have hdep1 : ∀ a,
        ((if (reg.heap i).is_dirty then reg
          else updHeap reg i (fun n => { n with is_dirty := true })).heap a).dependents
        = dep a := by
      intro a
      split
      · exact hdep a
      · simp only [updHeap_heap]
        split
        · rename_i ha; subst ha; exact hdep a
        · exact hdep a
    rw [hdep i]
    refine markDirtyFoldl_path dep f ih (dep i) _ j hdep1 ?_
    cases hpath with
    | single hmem => exact ⟨j, hmem, Or.inl ⟨rfl, by omega⟩⟩
    | cons hmem hp =>
      rename_i m k'
      exact ⟨m, hmem, Or.inr ⟨k', hp, by omega⟩⟩

/-- `mark_dirty` touches only its node and the nodes reachable along
`dependents`. -/
theorem markDirtyF_frame (dep : Nat → List Nat) (f : Nat) :
    ∀ (reg : Registry V) (i j : Nat),
      (∀ a, (reg.heap a).dependents = dep a) →
      j ≠ i → ¬ (∃ k, DepdPath dep i j k) →
      (markDirtyF f reg i).heap j = reg.heap j := by
  induction f with
  | zero => intro reg i j _ _ _; rfl
  | succ f ih =>
    intro reg i j hdep hji hnr
    rw [markDirtyF]
    have hfold : ∀ (ids : List Nat) (r : Registry V),
        (∀ a, (r.heap a).dependents = dep a) →
        (∀ m ∈ ids, j ≠ m ∧ ¬ ∃ k, DepdPath dep m j k) →
        (ids.foldl (markDirtyF f) r).heap j = r.heap j := by
      intro ids
      induction ids with
      | nil => intro r _ _; rfl
      | cons m rest ihl =>
        intro r hr hms
        simp only [List.foldl_cons]
        have hdepNext : ∀ a, ((markDirtyF f r m).heap a).dependents = dep a := by
          intro a
          rw [(markDirtyF_fields f r m a).2.2.2.1]
          exact hr a
        rw [ihl (markDirtyF f r m) hdepNext (fun m' hm' => hms m' (by simp [hm']))]
        exact ih r m j hr (hms m (by simp)).1 (hms m (by simp)).2
    have hms : ∀ m ∈ (reg.heap i).dependents, j ≠ m ∧ ¬ ∃ k, DepdPath dep m j k := by
      intro m hm
      rw [hdep i] at hm
      constructor
      · intro h
        subst h
        exact hnr ⟨1, DepdPath.single hm⟩
      · intro ⟨k, hp⟩
        exact hnr ⟨k + 1, DepdPath.cons hm hp⟩
    rw [hfold _ _ ?_ hms]
    · split
      · rfl
      · simp only [updHeap_heap]
        rw [if_neg hji]
    · intro a
      split
      · exact hdep a
      · simp only [updHeap_heap]
        split
        · rename_i ha; subst ha; exact hdep a
        · exact hdep a

/-- `mark_dependents_dirty` marks the full dependents closure (within fuel). -/
theorem markDependentsDirty_path (dep : Nat → List Nat) (f : Nat)
    (reg : Registry V) (i j k : Nat)
    (hdep : ∀ a, (reg.heap a).dependents = dep a)
    (hpath : DepdPath dep i j k) (hk : k ≤ f) :
    ((markDependentsDirty f reg i).heap j).is_dirty = true := by
  unfold markDependentsDirty
  rw [hdep i]
  refine markDirtyFoldl_path dep f (markDirtyF_path dep f) (dep i) reg j hdep ?_
  cases hpath with
  | single hmem => exact ⟨j, hmem, Or.inl ⟨rfl, by omega⟩⟩
  | cons hmem hp =>
    rename_i m k'
    exact ⟨m, hmem, Or.inr ⟨k', hp, by omega⟩⟩

/-- `mark_dependents_dirty` touches only the dependents closure of its node. -/
theorem markDependentsDirty_frame (dep : Nat → List Nat) (f : Nat)
    (reg : Registry V) (i j : Nat)
    (hdep : ∀ a, (reg.heap a).dependents = dep a)
    (hnr : ¬ ∃ k, DepdPath dep i j k) :
    (markDependentsDirty f reg i).heap j = reg.heap j := by
  unfold markDependentsDirty
  rw [hdep i]
  have hfold : ∀ (ids : List Nat) (r : Registry V),
      (∀ a, (r.heap a).dependents = dep a) →
      (∀ m ∈ ids, j ≠ m ∧ ¬ ∃ k, DepdPath dep m j k) →
      (ids.foldl (markDirtyF f) r).heap j = r.heap j := by
    intro ids
    induction ids with
    | nil => intro r _ _; rfl
    | cons m rest ihl =>
      intro r hr hms
      simp only [List.foldl_cons]
      have hdepNext : ∀ a, ((markDirtyF f r m).heap a).dependents = dep a := by
        intro a
        rw [(markDirtyF_fields f r m a).2.2.2.1]
        exact hr a
      rw [ihl (markDirtyF f r m) hdepNext (fun m' hm' => hms m' (by simp [hm']))]
      exact markDirtyF_frame dep f r m j hr (hms m (by simp)).1 (hms m (by simp)).2
  refine hfold (dep i) reg hdep ?_
  intro m hm
  constructor
  · intro h
    subst h
    exact hnr ⟨1, DepdPath.single hm⟩
  · intro ⟨k, hp⟩
    exact hnr ⟨k + 1, DepdPath.cons hm hp⟩

/-- `mark_dependents_dirty` changes at most dirty flags, and no tables. -/
theorem markDependentsDirty_fields (f : Nat) (reg : Registry V) (i j : Nat) :
    sameExceptDirty (reg.heap j) ((markDependentsDirty f reg i).heap j) := by
  unfold markDependentsDirty
  generalize (reg.heap i).dependents = ids
  induction ids generalizing reg with
  | nil => exact sameExceptDirty_refl _
  | cons m rest ihl =>
    simp only [List.foldl_cons]
    exact sameExceptDirty_trans (markDirtyF_fields f reg m j) (ihl (markDirtyF f reg m))

theorem markDependentsDirty_tables (f : Nat) (reg : Registry V) (i : Nat) :
    (markDependentsDirty f reg i).nodes = reg.nodes ∧
    (markDependentsDirty f reg i).input_nodes = reg.input_nodes ∧
    (markDependentsDirty f reg i).nextId = reg.nextId ∧
    (markDependentsDirty f reg i).cached_values = reg.cached_values := by
  unfold markDependentsDirty
  generalize (reg.heap i).dependents = ids
  induction ids generalizing reg with
  | nil => exact ⟨rfl, rfl, rfl, rfl⟩
  | cons m rest ihl =>
    simp only [List.foldl_cons]
    obtain ⟨a1, a2, a3, a4⟩ := markDirtyF_tables f reg m
    obtain ⟨b1, b2, b3, b4⟩ := ihl (markDirtyF f reg m)
    exact ⟨b1.trans a1, b2.trans a2, b3.trans a3, b4.trans a4⟩

/-! ### Evaluator unfolding lemmas -/

/-- The memoization fast path of `compute`. -/
theorem computeF_memo (f : Nat) (reg : Registry V) (i : Nat)
    (hd : (reg.heap i).is_dirty = false) (hc : (reg.heap i).is_computed = true) :
    computeF (f + 1) reg i false = (reg, (reg.heap i).result, []) := by
  rw [computeF]
  simp [hd, hc]

/-- The not-ready abort path of `compute`. -/
theorem computeF_notReady (f : Nat) (reg : Registry V) (i : Nat) (force : Bool)
    (hnskip : ¬(force = false ∧ (reg.heap i).is_dirty = false ∧
      (reg.heap i).is_computed = true))
    (hnone : (runDeps (getValueF f) reg (reg.heap i).dependencies).2.1.any
      Option.isNone = true) :
    computeF (f + 1) reg i force =
      ((runDeps (getValueF f) reg (reg.heap i).dependencies).1, none,
       (runDeps (getValueF f) reg (reg.heap i).dependencies).2.2) := by
  rw [computeF]
  rw [if_neg hnskip]
  dsimp only
  rw [if_pos hnone]

/-- The full compute path of `compute`. -/
theorem computeF_run (f : Nat) (reg : Registry V) (i : Nat) (force : Bool)
    (hnskip : ¬(force = false ∧ (reg.heap i).is_dirty = false ∧
      (reg.heap i).is_computed = true))
    (hsome : (runDeps (getValueF f) reg (reg.heap i).dependencies).2.1.any
      Option.isNone = false) :
    computeF (f + 1) reg i force =
      (let r := runDeps (getValueF f) reg (reg.heap i).dependencies
       let a := applyFunc r.1 i (reg.heap i).func (r.2.1.filterMap id)
       (updHeap a.1 i (fun n =>
          { n with result := a.2.1, is_computed := true, is_dirty := false }),
        a.2.1, r.2.2 ++ a.2.2)) := by
  rw [computeF]
  rw [if_neg hnskip]
  dsimp only
  rw [hsome]
  simp

/-- `get_value` with a non-empty override stack returns the top, untouched state. -/
theorem getValueF_override (f : Nat) (reg : Registry V) (i : Nat) (v : Option V)
    (rest : List (Option V)) (h : (reg.heap i).override_stack = v :: rest) :
    getValueF (f + 1) reg i = (reg, v, []) := by
  rw [getValueF]
  dsimp only
  rw [h]

/-- `get_value` without override and without the LAZY/CACHED-dirty trigger just
reads `result`. -/
theorem getValueF_plain (f : Nat) (reg : Registry V) (i : Nat)
    (ho : (reg.heap i).override_stack = [])
    (hng : ¬((reg.heap i).is_dirty = true ∧
      ((reg.heap i).mode = ExecutionMode.lazy ∨
       (reg.heap i).mode = ExecutionMode.cached))) :
    getValueF (f + 1) reg i = (reg, (reg.heap i).result, []) := by
  rw [getValueF]
  dsimp only
  rw [ho]
  dsimp only
  rw [if_neg hng]

/-- `get_value` on a dirty LAZY/CACHED node without override triggers `compute`
and then re-reads `result` from the updated node. -/
theorem getValueF_force (f : Nat) (reg : Registry V) (i : Nat)
    (ho : (reg.heap i).override_stack = [])
    (hg : (reg.heap i).is_dirty = true ∧
      ((reg.heap i).mode = ExecutionMode.lazy ∨
       (reg.heap i).mode = ExecutionMode.cached)) :
    getValueF (f + 1) reg i =
      ((computeF f reg i false).1, ((computeF f reg i false).1.heap i).result,
       (computeF f reg i false).2.2) := by
  rw [getValueF]
  dsimp only
  rw [ho]
  dsimp only
  rw [if_pos hg]

/-- Frame lemma for a dependency sweep: nodes unreachable from the swept ids are
untouched and not invoked. -/
theorem runDeps_frame (dep : Nat → List Nat) (f : Nat) :
    ∀ (ids : List Nat) (reg : Registry V) (j : Nat),
      (∀ a, (reg.heap a).dependencies = dep a) →
      (∀ d ∈ ids, ¬ Relation.ReflTransGen (fun x y => y ∈ dep x) d j) →
      (runDeps (getValueF f) reg ids).1.heap j = reg.heap j ∧
      j ∉ (runDeps (getValueF f) reg ids).2.2 := by
  intro ids
  induction ids with
  | nil => intro reg j _ _; simp [runDeps]
  | cons d rest ihl =>
    intro reg j hd hre
    simp only [runDeps, List.mem_append]
    obtain ⟨e1, e2⟩ := (evalFrame dep f).2 reg d j hd (hre d (by simp))
    have hdep2 : ∀ a, ((getValueF f reg d).1.heap a).dependencies = dep a := by
      intro a
      rw [(getValueF_struct f reg d a).2.2.1]
      exact hd a
    obtain ⟨g1, g2⟩ := ihl (getValueF f reg d).1 j hdep2
      (fun d' hd' => hre d' (by simp [hd']))
    exact ⟨g1.trans e1, by tauto⟩

/-! ### Claim C2 -/

/-- C2: for a node whose `compute()` gets past the memoization check, if the
dependency sweep yields the not-ready sentinel (`none`) for any dependency,
`compute` returns `none` without invoking the node's own function — the call is
exactly the dependency sweep followed by a not-ready return, adding nothing to
the invocation trace — and, the node not being reachable from its own
dependencies (acyclic graph), its state (`result`, `is_computed`, `is_dirty`,
everything) is unchanged; unavailability thus propagates to the caller instead
of raising. -/
theorem compute_notReady_propagates (f : Nat) (reg : Registry V) (i : Nat)
    (force : Bool)
    (hnskip : ¬(force = false ∧ (reg.heap i).is_dirty = false ∧
      (reg.heap i).is_computed = true))
    (hnone : (runDeps (getValueF f) reg (reg.heap i).dependencies).2.1.any
      Option.isNone = true)
    (hacyc : ∀ d ∈ (reg.heap i).dependencies,
      ¬ Relation.ReflTransGen (DepStep reg) d i) :
    computeF (f + 1) reg i force =
      ((runDeps (getValueF f) reg (reg.heap i).dependencies).1, none,
       (runDeps (getValueF f) reg (reg.heap i).dependencies).2.2) ∧
    (computeF (f + 1) reg i force).1.heap i = reg.heap i ∧
    i ∉ (computeF (f + 1) reg i force).2.2 := by
  have h1 := computeF_notReady f reg i force hnskip hnone
  obtain ⟨e1, e2⟩ := runDeps_frame (fun a => (reg.heap a).dependencies) f
    (reg.heap i).dependencies reg i (fun a => rfl) hacyc
  refine ⟨h1, ?_, ?_⟩
  · rw [h1]
    exact e1
  · rw [h1]
    exact e2

/-- Witness for C2 on the fixture: node 0 is dirty, its input dependency 1 is
unset, so its compute aborts not-ready with untouched state and no invocation. -/
theorem compute_notReady_witness :
    computeF 2 regNotReady 0 false =
      ((runDeps (getValueF 1) regNotReady (regNotReady.heap 0).dependencies).1, none,
       (runDeps (getValueF 1) regNotReady (regNotReady.heap 0).dependencies).2.2) ∧
    (computeF 2 regNotReady 0 false).1.heap 0 = regNotReady.heap 0 ∧
    0 ∉ (computeF 2 regNotReady 0 false).2.2 := by
  refine compute_notReady_propagates 1 regNotReady 0 false (by decide) (by decide) ?_
  intro d hd hrtg
  have hdeps : (regNotReady.heap 0).dependencies = [1] := rfl
  rw [hdeps] at hd
  have hd1 : d = 1 := by simpa using hd
  subst hd1
  rcases Relation.ReflTransGen.cases_head hrtg with h | ⟨c, hc, _⟩
  · exact absurd h (by decide)
  · have hnil : (regNotReady.heap 1).dependencies = [] := rfl
    simp only [DepStep, hnil] at hc
    exact absurd hc (List.not_mem_nil c)

/-! ### Claim C3 -/

/-- C3: for a computed, clean node with no active override, unforced `compute()`
and `get_value()` return the memoized result with no state change and without
invoking the node's function; in particular two successive `get_value()` calls
with no intervening mutation return the same value and invoke the compute
function at most once (in fact zero times) between them. -/
theorem memoized_reads (f g : Nat) (reg : Registry V) (i : Nat)
    (hc : (reg.heap i).is_computed = true) (hd : (reg.heap i).is_dirty = false)
    (ho : (reg.heap i).override_stack = []) :
    computeF (f + 1) reg i false = (reg, (reg.heap i).result, []) ∧
    getValueF (g + 1) reg i = (reg, (reg.heap i).result, []) ∧
    (getValueF (g + 1) ((getValueF (g + 1) reg i).1) i).2.1 =
      (getValueF (g + 1) reg i).2.1 ∧
    (getValueF (g + 1) reg i).2.2 ++
      (getValueF (g + 1) ((getValueF (g + 1) reg i).1) i).2.2 = [] := by
  have h1 := computeF_memo f reg i hd hc
  have h2 := getValueF_plain g reg i ho (by rw [hd]; simp)
  refine ⟨h1, h2, ?_, ?_⟩
  · simp [h2]
  · simp [h2]

/-- Witness for C3 on the fixture: the computed clean node 0 of `regMemo`. -/
theorem memoized_reads_witness :
    computeF 1 regMemo 0 false = (regMemo, (regMemo.heap 0).result, []) ∧
    getValueF 1 regMemo 0 = (regMemo, (regMemo.heap 0).result, []) ∧
    (getValueF 1 ((getValueF 1 regMemo 0).1) 0).2.1 = (getValueF 1 regMemo 0).2.1 ∧
    (getValueF 1 regMemo 0).2.2 ++
      (getValueF 1 ((getValueF 1 regMemo 0).1) 0).2.2 = [] :=
  memoized_reads 0 0 regMemo 0 (by decide) (by decide) (by decide)

/-! ### Claim C4 -/

/-- Entering an override scope keeps the dependents wiring. -/
theorem enterOverride_dependents (f : Nat) (reg : Registry V) (i : Nat)
    (v : Option V) (a : Nat) :
    ((enterOverride f reg i v).heap a).dependents = (reg.heap a).dependents := by
  unfold enterOverride
  rw [(markDependentsDirty_fields f
    (updHeap reg i (fun n => { n with override_stack := v :: n.override_stack })) i a).2.2.2.1]
  simp only [updHeap_heap]
  split <;> rfl

/-- The full state of node `i` after entering its override scope: only the stack
is pushed (when `i` is not among its own transitive dependents). -/
theorem enterOverride_at (f : Nat) (reg : Registry V) (i : Nat) (v : Option V)
    (hnr : ¬ ∃ k, DepdPath (depdOf reg) i i k) :
    (enterOverride f reg i v).heap i =
      { reg.heap i with override_stack := v :: (reg.heap i).override_stack } := by
  unfold enterOverride
  have hdepP : ∀ a,
      ((updHeap reg i (fun n => { n with override_stack := v :: n.override_stack })).heap a).dependents
      = depdOf reg a := by
    intro a
    simp only [updHeap_heap]
    split
    · rename_i ha; subst ha; rfl
    · rfl
  rw [markDependentsDirty_frame (depdOf reg) f _ i i hdepP hnr]
  simp

/-- C4: while a node's override stack is non-empty, `get_value` returns the most
recently pushed value regardless of mode or dirty/computed state (so nested
overrides expose only the top); entering the scope pushes the value and marks
all transitive dependents dirty; the scope runs `__exit__` on both the normal
and the error path, popping exactly the pushed value and re-marking dependents
dirty, so (for a body that leaves the overridden node and the graph wiring
alone, in a graph where the node is not its own transitive dependent) the node's
state — and hence the value `get_value` returns for a computed clean node — is
restored to its pre-override state after the scope. -/
theorem override_scope {E A : Type} (f g : Nat) (reg : Registry V) (i : Nat)
    (v : Option V) (body : Registry V → Registry V × Except E A)
    (hnr : ¬ ∃ k, DepdPath (depdOf reg) i i k)
    (hbody : (body (enterOverride f reg i v)).1.heap i =
      (enterOverride f reg i v).heap i)
    (hwire : ∀ a, ((body (enterOverride f reg i v)).1.heap a).dependents =
      (reg.heap a).dependents) :
    (∀ (reg' : Registry V) (w : Option V) (rest : List (Option V)),
      (reg'.heap i).override_stack = w :: rest →
      getValueF (g + 1) reg' i = (reg', w, [])) ∧
    ((enterOverride f reg i v).heap i).override_stack =
      v :: (reg.heap i).override_stack ∧
    getValueF (g + 1) (enterOverride f reg i v) i = (enterOverride f reg i v, v, []) ∧
    (∀ j k, DepdPath (depdOf reg) i j k → k ≤ f →
      ((enterOverride f reg i v).heap j).is_dirty = true) ∧
    overrideRun f reg i v body =
      (exitOverride f (body (enterOverride f reg i v)).1 i,
       (body (enterOverride f reg i v)).2) ∧
    (∀ j k, DepdPath (depdOf reg) i j k → k ≤ f →
      ((overrideRun f reg i v body).1.heap j).is_dirty = true) ∧
    (overrideRun f reg i v body).1.heap i = reg.heap i ∧
    ((reg.heap i).is_computed = true → (reg.heap i).is_dirty = false →
      (reg.heap i).override_stack = [] →
      getValueF (g + 1) reg i = (reg, (reg.heap i).result, []) ∧
      getValueF (g + 1) (overrideRun f reg i v body).1 i =
        ((overrideRun f reg i v body).1, (reg.heap i).result, [])) := by
  have hat := enterOverride_at f reg i v hnr
  have hrun : overrideRun f reg i v body =
      (exitOverride f (body (enterOverride f reg i v)).1 i,
       (body (enterOverride f reg i v)).2) := by
    unfold overrideRun
    dsimp only
    rcases hb : body (enterOverride f reg i v) with ⟨reg2, exc⟩
    cases exc <;> rfl
  -- state of node i after the whole scope
  have hdep3 : ∀ a,
      ((updHeap (body (enterOverride f reg i v)).1 i
        (fun n => { n with override_stack := n.override_stack.tail })).heap a).dependents
      = depdOf reg a := by
    intro a
    simp only [updHeap_heap]
    split
    · rename_i ha; subst ha; exact hwire a
    · exact hwire a
  have hexit_at : (exitOverride f (body (enterOverride f reg i v)).1 i).heap i =
      reg.heap i := by
    unfold exitOverride
    rw [markDependentsDirty_frame (depdOf reg) f _ i i hdep3 hnr]
    simp only [updHeap_heap, if_pos rfl]
    rw [hbody, hat]
    rfl
  refine ⟨?_, ?_, ?_, ?_, hrun, ?_, ?_, ?_⟩
  · intro reg' w rest h
    exact getValueF_override g reg' i w rest h
  · rw [hat]
  · exact getValueF_override g _ i v _ (by rw [hat])
  · intro j k hp hk
    unfold enterOverride
    exact markDependentsDirty_path (depdOf reg) f _ i j k
      (fun a => by
        simp only [updHeap_heap]
        split
        · rename_i ha; subst ha; rfl
        · rfl) hp hk
  · intro j k hp hk
    rw [hrun]
    unfold exitOverride
    exact markDependentsDirty_path (depdOf reg) f _ i j k hdep3 hp hk
  · rw [hrun]
    exact hexit_at
  · intro hc hd ho
    constructor
    · exact getValueF_plain g reg i ho (by rw [hd]; simp)
    · rw [hrun]
      dsimp only
      have h := getValueF_plain g (exitOverride f (body (enterOverride f reg i v)).1 i)
        i (by rw [hexit_at]; exact ho) (by rw [hexit_at, hd]; simp)
      rw [h, hexit_at]

/-- Witness for C4 on the fixture: override node 0 of `regOvr` with `some 11`
around a body that finishes normally without touching the graph. -/
theorem override_scope_witness :
    (∀ (reg' : Registry Int) (w : Option Int) (rest : List (Option Int)),
      (reg'.heap 0).override_stack = w :: rest →
      getValueF 1 reg' 0 = (reg', w, [])) ∧
    ((enterOverride 2 regOvr 0 (some 11)).heap 0).override_stack =
      some 11 :: (regOvr.heap 0).override_stack ∧
    getValueF 1 (enterOverride 2 regOvr 0 (some 11)) 0 =
      (enterOverride 2 regOvr 0 (some 11), some 11, []) ∧
    (∀ j k, DepdPath (depdOf regOvr) 0 j k → k ≤ 2 →
      ((enterOverride 2 regOvr 0 (some 11)).heap j).is_dirty = true) ∧
    overrideRun 2 regOvr 0 (some 11) okBody =
      (exitOverride 2 (okBody (enterOverride 2 regOvr 0 (some 11))).1 0,
       (okBody (enterOverride 2 regOvr 0 (some 11))).2) ∧
    (∀ j k, DepdPath (depdOf regOvr) 0 j k → k ≤ 2 →
      ((overrideRun 2 regOvr 0 (some 11) okBody).1.heap j).is_dirty = true) ∧
    (overrideRun 2 regOvr 0 (some 11) okBody).1.heap 0 = regOvr.heap 0 ∧
    ((regOvr.heap 0).is_computed = true → (regOvr.heap 0).is_dirty = false →
      (regOvr.heap 0).override_stack = [] →
      getValueF 1 regOvr 0 = (regOvr, (regOvr.heap 0).result, []) ∧
      getValueF 1 (overrideRun 2 regOvr 0 (some 11) okBody).1 0 =
        ((overrideRun 2 regOvr 0 (some 11) okBody).1,
         (regOvr.heap 0).result, [])) := by
  refine override_scope 2 0 regOvr 0 (some 11) okBody ?_ rfl
    (fun a => enterOverride_dependents 2 regOvr 0 (some 11) a)
  rintro ⟨k, hp⟩
  have h0 : depdOf regOvr 0 = [1] := rfl
  have h1 : depdOf regOvr 1 = [] := rfl
  cases hp with
  | single hm =>
    rw [h0] at hm
    exact absurd hm (by decide)
  | cons hm hp2 =>
    rename_i m k2
    rw [h0] at hm
    have hm1 : m = 1 := by simpa using hm
    subst hm1
    cases hp2 with
    | single hm2 => rw [h1] at hm2; exact absurd hm2 (List.not_mem_nil _)
    | cons hm2 _ => rw [h1] at hm2; exact absurd hm2 (List.not_mem_nil _)

/-! ### Claim C5 -/

/-- C5 counterexample: the claim "for every transitive dependent N, N's next
`compute()` re-invokes N's function" is false as stated.  In `regSet`,
`set_value(7)` on input 0 marks the dependent node 2 dirty, but node 2's next
`compute()` sees the never-set input 1 as not ready and returns the sentinel
without invoking node 2's function (empty invocation trace). -/
theorem setValue_recompute_cex :
    ((setValue 2 regSet 0 (some 7)).1.heap 2).is_dirty = true ∧
    (computeF 3 (setValue 2 regSet 0 (some 7)).1 2 false).2.2 = [] ∧
    (computeF 3 (setValue 2 regSet 0 (some 7)).1 2 false).2.1 = none := by
  decide

/-- C5 (amended): `set_value(v)` raises "not settable" if and only if `can_set`
is false, leaving the registry unchanged in that case; on success it sets
`result = v`, `is_computed = true`, `is_dirty = false` on the node (unchanged
otherwise, the node not being its own transitive dependent) and marks the full
transitive closure of its dependents dirty; a dirty dependent's next `compute()`
re-invokes its function provided no dependency value is the not-ready sentinel. -/
theorem setValue_spec (f : Nat) (reg : Registry V) (i : Nat) (v : Option V)
    (hnr : ¬ ∃ k, DepdPath (depdOf reg) i i k) :
    ((reg.heap i).can_set = false →
      setValue f reg i v =
        (reg, some ("Cannot set value on immutable node " ++ (reg.heap i).name))) ∧
    ((reg.heap i).can_set = true →
      (setValue f reg i v).2 = none ∧
      (setValue f reg i v).1.heap i =
        { reg.heap i with result := v, is_computed := true, is_dirty := false } ∧
      (∀ j k, DepdPath (depdOf reg) i j k → k ≤ f →
        ((setValue f reg i v).1.heap j).is_dirty = true)) ∧
    (∀ (g : Nat) (reg' : Registry V) (j : Nat) (fj : List V → Option V),
      (reg'.heap j).is_dirty = true → (reg'.heap j).func = NodeFunc.fn fj →
      (runDeps (getValueF g) reg' (reg'.heap j).dependencies).2.1.any
        Option.isNone = false →
      j ∈ (computeF (g + 1) reg' j false).2.2 ∧
      (computeF (g + 1) reg' j false).2.1 =
        fj ((runDeps (getValueF g) reg' (reg'.heap j).dependencies).2.1.filterMap id)) := by
  refine ⟨?_, ?_, ?_⟩
  · intro hcs
    unfold setValue
    dsimp only
    rw [hcs]
    simp
  · intro hcs
    unfold setValue
    dsimp only
    rw [hcs]
    rw [if_neg (by decide : ¬(true = false))]
    have hdep1 : ∀ a,
        ((updHeap reg i (fun n =>
          { n with result := v, is_computed := true, is_dirty := false })).heap a).dependents
        = depdOf reg a := by
      intro a
      simp only [updHeap_heap]
      split
      · rename_i ha; subst ha; rfl
      · rfl
    refine ⟨rfl, ?_, ?_⟩
    · rw [markDependentsDirty_frame (depdOf reg) f _ i i hdep1 hnr]
      simp
      exact hcs
    · intro j k hp hk
      exact markDependentsDirty_path (depdOf reg) f _ i j k hdep1 hp hk
  · intro g reg' j fj hdj hfj hready
    have hrw := computeF_run g reg' j false (by simp [hdj]) hready
    rw [hrw]
    dsimp only
    rw [hfj]
    simp [applyFunc]

/-- Witness for C5 on the fixture: `set_value(7)` on the settable input 0 of
`regSet`. -/
theorem setValue_spec_witness :
    ((regSet.heap 0).can_set = false →
      setValue 2 regSet 0 (some 7) =
        (regSet, some ("Cannot set value on immutable node " ++ (regSet.heap 0).name))) ∧
    ((regSet.heap 0).can_set = true →
      (setValue 2 regSet 0 (some 7)).2 = none ∧
      (setValue 2 regSet 0 (some 7)).1.heap 0 =
        { regSet.heap 0 with result := some 7, is_computed := true, is_dirty := false } ∧
      (∀ j k, DepdPath (depdOf regSet) 0 j k → k ≤ 2 →
        ((setValue 2 regSet 0 (some 7)).1.heap j).is_dirty = true)) ∧
    (∀ (g : Nat) (reg' : Registry Int) (j : Nat) (fj : List Int → Option Int),
      (reg'.heap j).is_dirty = true → (reg'.heap j).func = NodeFunc.fn fj →
      (runDeps (getValueF g) reg' (reg'.heap j).dependencies).2.1.any
        Option.isNone = false →
      j ∈ (computeF (g + 1) reg' j false).2.2 ∧
      (computeF (g + 1) reg' j false).2.1 =
        fj ((runDeps (getValueF g) reg' (reg'.heap j).dependencies).2.1.filterMap id)) := by
  refine setValue_spec 2 regSet 0 (some 7) ?_
  rintro ⟨k, hp⟩
  have h0 : depdOf regSet 0 = [2] := rfl
  have h2 : depdOf regSet 2 = [] := rfl
  cases hp with
  | single hm =>
    rw [h0] at hm
    exact absurd hm (by decide)
  | cons hm hp2 =>
    rename_i m k2
    rw [h0] at hm
    have hm1 : m = 2 := by simpa using hm
    subst hm1
    cases hp2 with
    | single hm2 => rw [h2] at hm2; exact absurd hm2 (List.not_mem_nil _)
    | cons hm2 _ => rw [h2] at hm2; exact absurd hm2 (List.not_mem_nil _)

/-! ### Claim C8 -/

/-- C8: evaluation of `reset` at the failing inputs.  `TaskNode.reset` on a
computed node clears the computed/dirty/override flags but keeps `result`
(observable: the stale value survives), although its docstring announces "Reset
the node's computed state and result"; and on an uncomputed node it is a
complete no-op, so an active override stack survives.  At the registry level,
`DAGRegistry.reset` does apply this per-node reset to every node and clears
`cached_values` — but the stale `result` survives there too. -/
theorem resetNode_keeps_result :
    resetNode nodeComputed =
      { nodeComputed with
          is_computed := false, is_dirty := true, override_stack := [] } ∧
    (resetNode nodeComputed).result = some 5 ∧
    resetNode nodeOverridden = nodeOverridden ∧
    (resetNode nodeOverridden).override_stack = [some 9] ∧
    (registryReset regMemo).cached_values = [] ∧
    ((registryReset regMemo).heap 0).is_computed = false ∧
    ((registryReset regMemo).heap 0).is_dirty = true ∧
    ((registryReset regMemo).heap 0).result = some 7 :=
  ⟨rfl, rfl, rfl, rfl, rfl, rfl, rfl, rfl⟩

/-! ### Claim C9 -/

/-- C9 counterexample: calling `input("a","d", …)` twice for the same
`(name, key)` pair does not return the existing node — it allocates a fresh
node object (a different id) and overwrites the registry binding with it, so
the previously set value is gone (the rebound node is uncomputed). -/
theorem input_rebinds_cex :
    (inputCall 3 regEmpty "a" "d" (some 5)).2 ≠
      (inputCall 3 (inputCall 3 regEmpty "a" "d" (some 5)).1 "a" "d" none).2 ∧
    alook (inputCall 3 (inputCall 3 regEmpty "a" "d" (some 5)).1 "a" "d" none).1.nodes
      "a_d" =
      some (inputCall 3 (inputCall 3 regEmpty "a" "d" (some 5)).1 "a" "d" none).2 ∧
    ((inputCall 3 regEmpty "a" "d" (some 5)).1.heap
      (inputCall 3 regEmpty "a" "d" (some 5)).2).is_computed = true ∧
    ((inputCall 3 (inputCall 3 regEmpty "a" "d" (some 5)).1 "a" "d" none).1.heap
      (inputCall 3 (inputCall 3 regEmpty "a" "d" (some 5)).1 "a" "d" none).2).is_computed
      = false := by
  refine ⟨by decide, ?_, by decide, by decide⟩
  rfl

/-- C9 (amended): registration through the `node` wrapper is idempotent — once a
name (for CACHED nodes, a name-plus-key) is registered, calling the wrapper
again returns the existing node and leaves the registry untouched.  `input`,
however, is not idempotent: it always allocates a fresh settable
dependency-free node under `"{name}_{dt}"`, overwrites both the
`input_nodes[(name, dt)]` and `nodes` bindings with it, and applies the initial
value via `set_value` exactly when one is provided. -/
theorem registration_spec (reg : Registry V) (f : Nat) :
    (∀ (node_name : String) (i : Nat) (deps : List Nat) (fn : List V → Option V)
        (mode : ExecutionMode) (cs : Bool) (args : List Nat),
      alook reg.nodes node_name = some i →
      regularNodeCall reg node_name deps fn mode cs args = (reg, i)) ∧
    (∀ (node_name d : String) (i : Nat) (u : Option V) (cs : Bool),
      alook reg.nodes (node_name ++ "_" ++ d) = some i →
      cachedNodeCall reg node_name (some d) u cs = (reg, i)) ∧
    (∀ (name dtKey : String) (value : Option V),
      (inputCall f reg name dtKey value).2 = reg.nextId ∧
      alook (inputCall f reg name dtKey value).1.nodes (name ++ "_" ++ dtKey) =
        some reg.nextId ∧
      alook (inputCall f reg name dtKey value).1.input_nodes (name, dtKey) =
        some reg.nextId ∧
      ((inputCall f reg name dtKey value).1.heap reg.nextId).can_set = true ∧
      ((inputCall f reg name dtKey value).1.heap reg.nextId).dependencies = [] ∧
      ((inputCall f reg name dtKey value).1.heap reg.nextId).result = value ∧
      (value = none →
        ((inputCall f reg name dtKey value).1.heap reg.nextId).is_computed = false) ∧
      (∀ w, value = some w →
        ((inputCall f reg name dtKey value).1.heap reg.nextId).is_computed = true)) := by
  refine ⟨?_, ?_, ?_⟩
  · intro node_name i deps fn mode cs args h
    unfold regularNodeCall
    rw [h]
  · intro node_name d i u cs h
    unfold cachedNodeCall
    dsimp only
    rw [h]
  · intro name dtKey value
    cases value with
    | none =>
      have hstep : (inputCall f reg name dtKey none).1.heap reg.nextId =
          { name := name ++ "_" ++ dtKey, func := NodeFunc.fn (fun _ => none),
            dependencies := [], dependents := [], mode := ExecutionMode.eager,
            can_set := true, result := none, is_computed := false, is_dirty := true,
            override_stack := [] } := by
        simp only [inputCall, allocNode, updHeap]
        simp
      refine ⟨rfl, ?_, ?_, ?_, ?_, ?_, fun _ => ?_, fun w hw => Option.noConfusion hw⟩
      · simp [inputCall, allocNode, alook_aupsert]
      · simp [inputCall, allocNode, alook_aupsert]
      · rw [hstep]
      · rw [hstep]
      · rw [hstep]
      · rw [hstep]
    | some w =>
      have hstep : (inputCall f reg name dtKey (some w)).1.heap reg.nextId =
          { name := name ++ "_" ++ dtKey, func := NodeFunc.fn (fun _ => none),
            dependencies := [], dependents := [], mode := ExecutionMode.eager,
            can_set := true, result := some w, is_computed := true, is_dirty := false,
            override_stack := [] } := by
        simp only [inputCall, allocNode, setValue, markDependentsDirty, updHeap]
        simp
      refine ⟨rfl, ?_, ?_, ?_, ?_, ?_, fun h => Option.noConfusion h, fun w' hw' => ?_⟩
      · simp [inputCall, allocNode, setValue, markDependentsDirty, updHeap,
          alook_aupsert]
      · simp [inputCall, allocNode, setValue, markDependentsDirty, updHeap,
          alook_aupsert]
      · rw [hstep]
      · rw [hstep]
      · rw [hstep]
      · rw [hstep]

/-- Witness for C9 on fixtures: the registered name `m` of `regMemo` resolves
idempotently, and `input` on the empty registry allocates id 0 with the stated
fresh-node state. -/
theorem registration_spec_witness :
    (∀ (node_name : String) (i : Nat) (deps : List Nat) (fn : List Int → Option Int)
        (mode : ExecutionMode) (cs : Bool) (args : List Nat),
      alook regMemo.nodes node_name = some i →
      regularNodeCall regMemo node_name deps fn mode cs args = (regMemo, i)) ∧
    (∀ (node_name d : String) (i : Nat) (u : Option Int) (cs : Bool),
      alook regMemo.nodes (node_name ++ "_" ++ d) = some i →
      cachedNodeCall regMemo node_name (some d) u cs = (regMemo, i)) ∧
    (∀ (name dtKey : String) (value : Option Int),
      (inputCall 2 regMemo name dtKey value).2 = regMemo.nextId ∧
      alook (inputCall 2 regMemo name dtKey value).1.nodes (name ++ "_" ++ dtKey) =
        some regMemo.nextId ∧
      alook (inputCall 2 regMemo name dtKey value).1.input_nodes (name, dtKey) =
        some regMemo.nextId ∧
      ((inputCall 2 regMemo name dtKey value).1.heap regMemo.nextId).can_set = true ∧
      ((inputCall 2 regMemo name dtKey value).1.heap regMemo.nextId).dependencies = [] ∧
      ((inputCall 2 regMemo name dtKey value).1.heap regMemo.nextId).result = value ∧
      (value = none →
        ((inputCall 2 regMemo name dtKey value).1.heap regMemo.nextId).is_computed
          = false) ∧
      (∀ w, value = some w →
        ((inputCall 2 regMemo name dtKey value).1.heap regMemo.nextId).is_computed
          = true)) :=
  registration_spec regMemo 2

/-! ### Claim C7 -/

/-- Cancel a common string prefix. -/
theorem string_append_cancel {a b c : String} (h : a ++ b = a ++ c) : b = c := by
  have hd : (a ++ b).data = (a ++ c).data := by rw [h]
  simp [String.data_append] at hd
  exact String.ext hd

/-- Cache-hit evaluation of a CACHED node's `load_func`: the memoized raw value
is returned and stored on the node, with no underlying-function invocation. -/
theorem computeF_cachedHit (g : Nat) (reg : Registry V) (i : Nat) (key : String)
    (u : Option V) (w : Option V)
    (hf : (reg.heap i).func = NodeFunc.cachedLoad key u)
    (hdeps : (reg.heap i).dependencies = [])
    (hnskip : ¬((reg.heap i).is_dirty = false ∧ (reg.heap i).is_computed = true))
    (hkey : alook reg.cached_values key = some w) :
    computeF (g + 1) reg i false =
      (updHeap reg i (fun n =>
        { n with result := w, is_computed := true, is_dirty := false }), w, []) := by
  rw [computeF]
  dsimp only
  rw [if_neg (by simpa using hnskip), hdeps, hf]
  simp [runDeps, applyFunc, hkey]

/-- Cache-miss evaluation of a CACHED node's `load_func`: the underlying function
is invoked (trace `[i]`), its value stored both in `cached_values` and on the
node. -/
theorem computeF_cachedMiss (g : Nat) (reg : Registry V) (i : Nat) (key : String)
    (u : Option V)
    (hf : (reg.heap i).func = NodeFunc.cachedLoad key u)
    (hdeps : (reg.heap i).dependencies = [])
    (hnskip : ¬((reg.heap i).is_dirty = false ∧ (reg.heap i).is_computed = true))
    (hkey : alook reg.cached_values key = none) :
    computeF (g + 1) reg i false =
      (updHeap { reg with cached_values := reg.cached_values ++ [(key, u)] } i
        (fun n => { n with result := u, is_computed := true, is_dirty := false }),
       u, [i]) := by
  rw [computeF]
  dsimp only
  rw [if_neg (by simpa using hnskip), hdeps, hf]
  simp [runDeps, applyFunc, hkey]

/-- The fresh-creation branch of the CACHED wrapper. -/
theorem cachedNodeCall_fresh (R : Registry V) (name d : String) (u : Option V)
    (cs : Bool) (h : alook R.nodes (name ++ "_" ++ d) = none) :
    cachedNodeCall R name (some d) u cs =
      ({ (allocNode R
          { name := name ++ "_" ++ d,
            func := NodeFunc.cachedLoad (name ++ "_" ++ d) u, dependencies := [],
            dependents := [], mode := ExecutionMode.cached, can_set := cs,
            result := none, is_computed := false, is_dirty := true,
            override_stack := [] }).1 with
          nodes := R.nodes ++ [(name ++ "_" ++ d, R.nextId)] }, R.nextId) := by
  unfold cachedNodeCall
  dsimp only
  rw [h]
  rfl

/-- The memoized branch of the CACHED wrapper: an existing name is returned
as-is, whatever the new call's arguments. -/
theorem cachedNodeCall_existing (R : Registry V) (name d : String) (u : Option V)
    (cs : Bool) (i : Nat) (h : alook R.nodes (name ++ "_" ++ d) = some i) :
    cachedNodeCall R name (some d) u cs = (R, i) := by
  unfold cachedNodeCall
  dsimp only
  rw [h]

/-- C7: for a CACHED node factory, calls with distinct `dt` keys produce and
memoize distinct registered nodes named `"{name}_{key}"`, each dependency-free
with the cache-consulting load function; a repeated call for the same key
returns the already-registered node and leaves the registry untouched; the load
function returns the memoized raw value (invoking nothing) on a cache hit and
invokes the underlying function and stores its result on a miss; and since a
Node-level `reset()` does not touch `cached_values`, computing again after a
reset returns the memoized value with no underlying invocation. -/
theorem cached_factory (reg : Registry V) (name d1 d2 : String) (u1 u2 : Option V)
    (cs : Bool) (hne : d1 ≠ d2)
    (h1 : alook reg.nodes (name ++ "_" ++ d1) = none)
    (h2 : alook reg.nodes (name ++ "_" ++ d2) = none) :
    (cachedNodeCall reg name (some d1) u1 cs).2 = reg.nextId ∧
    (cachedNodeCall reg name (some d1) u1 cs).1.heap reg.nextId =
      { name := name ++ "_" ++ d1,
        func := NodeFunc.cachedLoad (name ++ "_" ++ d1) u1, dependencies := [],
        dependents := [], mode := ExecutionMode.cached, can_set := cs,
        result := none, is_computed := false, is_dirty := true,
        override_stack := [] } ∧
    alook (cachedNodeCall reg name (some d1) u1 cs).1.nodes (name ++ "_" ++ d1) =
      some reg.nextId ∧
    (∀ (u' : Option V) (cs' : Bool),
      cachedNodeCall (cachedNodeCall reg name (some d1) u1 cs).1 name (some d1) u' cs' =
        ((cachedNodeCall reg name (some d1) u1 cs).1,
         (cachedNodeCall reg name (some d1) u1 cs).2)) ∧
    name ++ "_" ++ d1 ≠ name ++ "_" ++ d2 ∧
    (cachedNodeCall (cachedNodeCall reg name (some d1) u1 cs).1 name (some d2) u2 cs).2 ≠
      (cachedNodeCall reg name (some d1) u1 cs).2 ∧
    alook (cachedNodeCall (cachedNodeCall reg name (some d1) u1 cs).1 name
        (some d2) u2 cs).1.nodes (name ++ "_" ++ d1) = some reg.nextId ∧
    alook (cachedNodeCall (cachedNodeCall reg name (some d1) u1 cs).1 name
        (some d2) u2 cs).1.nodes (name ++ "_" ++ d2) = some (reg.nextId + 1) ∧
    (∀ (g : Nat) (reg' : Registry V) (i : Nat) (key : String) (u : Option V),
      (reg'.heap i).func = NodeFunc.cachedLoad key u →
      (reg'.heap i).dependencies = [] →
      (reg'.heap i).is_computed = false →
      alook reg'.cached_values key = none →
      (computeF (g + 1) reg' i false).2.1 = u ∧
      (computeF (g + 1) reg' i false).2.2 = [i] ∧
      alook (computeF (g + 1) reg' i false).1.cached_values key = some u ∧
      ((computeF (g + 1)
          (updHeap (computeF (g + 1) reg' i false).1 i resetNode) i false).2.1 = u ∧
       (computeF (g + 1)
          (updHeap (computeF (g + 1) reg' i false).1 i resetNode) i false).2.2 = [])) := by
  have hcall1 := cachedNodeCall_fresh reg name d1 u1 cs h1
  have hanodes1 : (cachedNodeCall reg name (some d1) u1 cs).1.nodes =
      reg.nodes ++ [(name ++ "_" ++ d1, reg.nextId)] := by
    rw [hcall1]
  have hid1 : (cachedNodeCall reg name (some d1) u1 cs).2 = reg.nextId := by
    rw [hcall1]
  have hlook1 : alook (cachedNodeCall reg name (some d1) u1 cs).1.nodes
      (name ++ "_" ++ d1) = some reg.nextId := by
    rw [hanodes1, alook_append_of_none _ _ _ h1]
    simp [alook]
  have hne12 : name ++ "_" ++ d1 ≠ name ++ "_" ++ d2 := by
    intro h
    exact hne (string_append_cancel h)
  have hnext1 : (cachedNodeCall reg name (some d1) u1 cs).1.nextId = reg.nextId + 1 := by
    rw [hcall1]
    rfl
  have hlook2m : alook (cachedNodeCall reg name (some d1) u1 cs).1.nodes
      (name ++ "_" ++ d2) = none := by
    rw [hanodes1, alook_append_of_none _ _ _ h2]
    simp [alook]
    exact hne12
  have hcall2 := cachedNodeCall_fresh (cachedNodeCall reg name (some d1) u1 cs).1
    name d2 u2 cs hlook2m
  refine ⟨hid1, ?_, hlook1, ?_, hne12, ?_, ?_, ?_, ?_⟩
  · rw [hcall1]
    simp [allocNode]
  · intro u' cs'
    rw [cachedNodeCall_existing _ name d1 u' cs' reg.nextId hlook1, hid1]
  · rw [hcall2, hid1, hnext1]
    omega
  · rw [hcall2]
    dsimp only
    exact alook_append_of_some _ _ _ _ hlook1
  · rw [hcall2]
    dsimp only
    rw [alook_append_of_none _ _ _ hlook2m, hnext1]
    simp [alook]
  · intro g reg' i key u hf hdeps hcomp hkey
    have hmiss := computeF_cachedMiss g reg' i key u hf hdeps (by simp [hcomp]) hkey
    have hcache1 : alook (computeF (g + 1) reg' i false).1.cached_values key
        = some u := by
      rw [hmiss]
      simp only [updHeap_cached]
      rw [alook_append_of_none _ _ _ hkey]
      simp [alook]
    refine ⟨by rw [hmiss], by rw [hmiss], hcache1, ?_⟩
    have hnode1 : (computeF (g + 1) reg' i false).1.heap i =
        { reg'.heap i with result := u, is_computed := true, is_dirty := false } := by
      rw [hmiss]
      simp
    have hnodeR : (updHeap (computeF (g + 1) reg' i false).1 i resetNode).heap i =
        { reg'.heap i with
            result := u, is_computed := false, is_dirty := true,
            override_stack := [] } := by
      simp only [updHeap_heap, if_pos rfl]
      rw [hnode1]
      simp [resetNode]
    have hhit := computeF_cachedHit g
      (updHeap (computeF (g + 1) reg' i false).1 i resetNode) i key u u
      (by rw [hnodeR]; exact hf) (by rw [hnodeR]; exact hdeps)
      (by rw [hnodeR]; simp)
      (by simp only [updHeap_cached]; exact hcache1)
    exact ⟨by rw [hhit], by rw [hhit]⟩

/-- Witness for C7 on the fixture: the cached factory `md` with keys `a` and `b`
on the empty registry. -/
theorem cached_factory_witness :
    (cachedNodeCall regEmpty "md" (some "a") (some 3) false).2 = regEmpty.nextId ∧
    (cachedNodeCall regEmpty "md" (some "a") (some 3) false).1.heap regEmpty.nextId =
      { name := "md" ++ "_" ++ "a",
        func := NodeFunc.cachedLoad ("md" ++ "_" ++ "a") (some 3), dependencies := [],
        dependents := [], mode := ExecutionMode.cached, can_set := false,
        result := none, is_computed := false, is_dirty := true,
        override_stack := [] } ∧
    alook (cachedNodeCall regEmpty "md" (some "a") (some 3) false).1.nodes
      ("md" ++ "_" ++ "a") = some regEmpty.nextId ∧
    (∀ (u' : Option Int) (cs' : Bool),
      cachedNodeCall (cachedNodeCall regEmpty "md" (some "a") (some 3) false).1 "md"
          (some "a") u' cs' =
        ((cachedNodeCall regEmpty "md" (some "a") (some 3) false).1,
         (cachedNodeCall regEmpty "md" (some "a") (some 3) false).2)) ∧
    "md" ++ "_" ++ "a" ≠ "md" ++ "_" ++ "b" ∧
    (cachedNodeCall (cachedNodeCall regEmpty "md" (some "a") (some 3) false).1 "md"
        (some "b") (some 4) false).2 ≠
      (cachedNodeCall regEmpty "md" (some "a") (some 3) false).2 ∧
    alook (cachedNodeCall (cachedNodeCall regEmpty "md" (some "a") (some 3) false).1
        "md" (some "b") (some 4) false).1.nodes ("md" ++ "_" ++ "a") =
      some regEmpty.nextId ∧
    alook (cachedNodeCall (cachedNodeCall regEmpty "md" (some "a") (some 3) false).1
        "md" (some "b") (some 4) false).1.nodes ("md" ++ "_" ++ "b") =
      some (regEmpty.nextId + 1) ∧
    (∀ (g : Nat) (reg' : Registry Int) (i : Nat) (key : String) (u : Option Int),
      (reg'.heap i).func = NodeFunc.cachedLoad key u →
      (reg'.heap i).dependencies = [] →
      (reg'.heap i).is_computed = false →
      alook reg'.cached_values key = none →
      (computeF (g + 1) reg' i false).2.1 = u ∧
      (computeF (g + 1) reg' i false).2.2 = [i] ∧
      alook (computeF (g + 1) reg' i false).1.cached_values key = some u ∧
      ((computeF (g + 1)
          (updHeap (computeF (g + 1) reg' i false).1 i resetNode) i false).2.1 = u ∧
       (computeF (g + 1)
          (updHeap (computeF (g + 1) reg' i false).1 i resetNode) i false).2.2 = [])) :=
  cached_factory regEmpty "md" "a" "b" (some 3) (some 4) false (by decide) rfl rfl

/-! ### Kahn's algorithm: association-list groundwork -/

theorem alook_eq_none {κ α : Type} [DecidableEq κ] (l : List (κ × α)) (k : κ) :
    alook l k = none ↔ k ∉ l.map Prod.fst := by
  induction l with
  | nil => simp [alook]
  | cons p rest ih =>
    simp only [alook, List.map_cons, List.mem_cons]
    by_cases h : p.1 = k
    · subst h
      simp
    · rw [if_neg h, ih]
      simp only [not_or]
      constructor
      · intro hk
        exact ⟨fun he => h he.symm, hk⟩
      · exact fun hk => hk.2

theorem alook_isSome_of_mem {κ α : Type} [DecidableEq κ] (l : List (κ × α)) (k : κ)
    (h : k ∈ l.map Prod.fst) : ∃ v, alook l k = some v := by
  cases halook : alook l k with
  | none => exact absurd ((alook_eq_none l k).mp halook) (by simpa using h)
  | some v => exact ⟨v, rfl⟩

theorem alook_mem {κ α : Type} [DecidableEq κ] (l : List (κ × α)) (k : κ) (v : α)
    (h : alook l k = some v) : (k, v) ∈ l := by
  induction l with
  | nil => simp [alook] at h
  | cons p rest ih =>
    simp only [alook] at h
    split at h
    · rename_i hp
      injection h with h
      rw [← hp, ← h]
      simp
    · right
      exact ih h

theorem alook_map_pair {α β : Type} (l : List (String × α)) (g : String × α → β)
    (k : String) :
    alook (l.map (fun p => (p.1, g p))) k = (alook l k).map (fun v => g (k, v)) := by
  induction l with
  | nil => simp [alook]
  | cons p rest ih =>
    simp only [List.map_cons, alook]
    split
    · rename_i h
      subst h
      simp
    · exact ih

theorem alook_appendAt (l : List (String × List String)) (k a v : String) :
    alook (appendAt l k v) a =
      if a = k then (alook l a).map (· ++ [v]) else alook l a := by
  induction l with
  | nil => by_cases h : a = k <;> simp [alook, appendAt, h]
  | cons p rest ih =>
    by_cases hpk : p.1 = k <;> by_cases hpa : p.1 = a <;>
      by_cases hak : a = k <;>
      simp_all [alook, appendAt]

theorem alook_foldPairs : ∀ (es : List (String × String))
    (adj : List (String × List String)) (a : String) (L : List String),
    alook adj a = some L →
    alook (es.foldl (fun ad e => appendAt ad e.1 e.2) adj) a =
      some (L ++ (es.filter (fun e => decide (e.1 = a))).map Prod.snd) := by
  intro es
  induction es with
  | nil => intro adj a L h; simpa using h
  | cons e rest ih =>
    intro adj a L h
    simp only [List.foldl_cons]
    by_cases hea : e.1 = a
    · have h1 : alook (appendAt adj e.1 e.2) a = some (L ++ [e.2]) := by
        rw [alook_appendAt, if_pos hea.symm, h]
        rfl
      rw [ih _ a (L ++ [e.2]) h1]
      simp [hea, List.filter_cons]
    · have h1 : alook (appendAt adj e.1 e.2) a = some L := by
        rw [alook_appendAt, if_neg (fun hc => hea hc.symm)]
        exact h
      rw [ih _ a L h1]
      have : (List.filter (fun e => decide (e.1 = a)) (e :: rest)) =
          List.filter (fun e => decide (e.1 = a)) rest := by
        simp [List.filter_cons, hea]
      rw [this]

theorem alook_initAdj (prof : List (String × List String)) (a : String)
    (h : a ∈ profKeys prof) :
    alook (prof.map (fun p => (p.1, ([] : List String)))) a = some [] := by
  rw [alook_map_pair prof (fun _ => ([] : List String)) a]
  obtain ⟨v, hv⟩ := alook_isSome_of_mem prof a h
  rw [hv]
  rfl

theorem buildAdj_eq_fold (prof : List (String × List String)) :
    buildAdj prof = (edgePairs prof).foldl (fun ad e => appendAt ad e.1 e.2)
      (prof.map (fun p => (p.1, ([] : List String)))) := by
  unfold buildAdj edgePairs
  generalize (prof.map (fun p => (p.1, ([] : List String)))) = init
  induction prof generalizing init with
  | nil => simp
  | cons p rest ih =>
    simp only [List.foldl_cons, List.flatMap_cons, List.foldl_append]
    rw [ih]
    congr 1
    rw [List.foldl_map]

theorem alook_buildAdj (prof : List (String × List String)) (a : String)
    (h : a ∈ profKeys prof) :
    alook (buildAdj prof) a =
      some (((edgePairs prof).filter (fun e => decide (e.1 = a))).map Prod.snd) := by
  rw [buildAdj_eq_fold]
  have := alook_foldPairs (edgePairs prof) _ a [] (alook_initAdj prof a h)
  simpa using this

theorem count_const_map {α : Type} (l : List α) (c b : String) :
    ((l.map (fun _ => c)).count b) = if c = b then l.length else 0 := by
  induction l with
  | nil => simp
  | cons x rest ih =>
    simp only [List.map_cons, List.count_cons, ih]
    by_cases h : c = b
    · simp [h]
    · simp [h, Ne.symm h]

theorem count_eq_filterLength (l : List String) (a : String) :
    l.count a = (l.filter (fun d => decide (d = a))).length := by
  have hfun : (fun d : String => d == a) = (fun d : String => decide (d = a)) := by
    funext d
    by_cases h : d = a <;> simp [h]
  rw [List.count, List.countP_eq_length_filter, hfun]

theorem edge_count (prof : List (String × List String))
    (hnd : (profKeys prof).Nodup) (a b : String) :
    (((edgePairs prof).filter (fun e => decide (e.1 = a))).map Prod.snd).count b
    = if b ∈ profKeys prof then (depsP prof b).count a else 0 := by
  induction prof with
  | nil => simp [edgePairs, profKeys, depsP, alook]
  | cons p rest ih =>
    have hnd' : (p.1 :: profKeys rest).Nodup := hnd
    have hnd2 : (profKeys rest).Nodup := hnd'.of_cons
    have hp1 : p.1 ∉ profKeys rest := (List.nodup_cons.mp hnd').1
    have hseg : (((p.2.map (fun d => (d, p.1))).filter
        (fun e => decide (e.1 = a))).map Prod.snd).count b =
        if p.1 = b then p.2.count a else 0 := by
      have hfm : (p.2.map (fun d => (d, p.1))).filter (fun e => decide (e.1 = a)) =
          (p.2.filter (fun d => decide (d = a))).map (fun d => (d, p.1)) := by
        rw [List.filter_map]
        rfl
      rw [hfm, List.map_map]
      have hcomp : (Prod.snd ∘ fun d : String => (d, p.1)) = fun _ => p.1 := rfl
      rw [hcomp, count_const_map]
      rw [count_eq_filterLength]
    have hsplit : edgePairs (p :: rest) =
        p.2.map (fun d => (d, p.1)) ++ edgePairs rest := by
      simp [edgePairs]
    rw [hsplit, List.filter_append, List.map_append, List.count_append, hseg, ih hnd2]
    by_cases hpb : p.1 = b
    · subst hpb
      rw [if_pos rfl, if_neg hp1]
      have hdp : depsP (p :: rest) p.1 = p.2 := by
        simp [depsP, alook]
      rw [hdp]
      have hmem : p.1 ∈ profKeys (p :: rest) := by simp [profKeys]
      rw [if_pos hmem]
      omega
    · rw [if_neg hpb]
      have hdp : depsP (p :: rest) b = depsP rest b := by
        simp [depsP, alook, hpb]
      rw [hdp]
      have hmem : (b ∈ profKeys (p :: rest)) ↔ (b ∈ profKeys rest) := by
        simp [profKeys]
        intro hb
        exact absurd hb.symm hpb
      by_cases hbr : b ∈ profKeys rest
      · rw [if_pos hbr, if_pos (hmem.mpr hbr)]
        omega
      · rw [if_neg hbr, if_neg (fun h => hbr (hmem.mp h))]

/-! ### Kahn's algorithm: the inner decrement loop -/

theorem alook_decAt (l : List (String × Int)) (k b : String) :
    alook (decAt l k) b =
      if b = k then (alook l b).map (· - 1) else alook l b := by
  induction l with
  | nil => by_cases h : b = k <;> simp [alook, decAt, h]
  | cons p rest ih =>
    by_cases hpk : p.1 = k <;> by_cases hpb : p.1 = b <;>
      by_cases hbk : b = k <;>
      simp_all [alook, decAt]

theorem processAdj_indeg : ∀ (ms : List String) (indeg : List (String × Int))
    (q : List String) (b : String),
    alook (processAdj ms indeg q).1 b =
      (alook indeg b).map (fun v => v - (ms.count b : Int)) := by
  intro ms
  induction ms with
  | nil =>
    intro indeg q b
    show alook indeg b = (alook indeg b).map (fun v => v - (([] : List String).count b : Int))
    cases alook indeg b with
    | none => rfl
    | some v => simp
  | cons m rest ih =>
    intro indeg q b
    simp only [processAdj]
    rw [ih, alook_decAt]
    by_cases hbm : b = m
    · subst hbm
      rw [if_pos rfl, Option.map_map, List.count_cons_self]
      cases alook indeg b with
      | none => rfl
      | some v =>
        show some ((v - 1) - (rest.count b : Int)) = some (v - ((rest.count b + 1 : Nat) : Int))
        congr 1
        push_cast
        omega
    · rw [if_neg hbm, List.count_cons_of_ne hbm]

theorem processAdj_queue : ∀ (ms : List String) (indeg : List (String × Int))
    (q : List String),
    ∃ newly, (processAdj ms indeg q).2 = q ++ newly ∧ newly.Nodup ∧
      (∀ m, m ∈ newly ↔
        ∃ v, alook indeg m = some v ∧ 1 ≤ v ∧ v ≤ (ms.count m : Int)) := by
  intro ms
  induction ms with
  | nil =>
    intro indeg q
    refine ⟨[], by simp [processAdj], by simp, ?_⟩
    intro m
    simp only [List.not_mem_nil, false_iff]
    rintro ⟨v, _, h1, h2⟩
    rw [List.count_nil] at h2
    push_cast at h2
    omega
  | cons m rest ih =>
    intro indeg q
    simp only [processAdj]
    obtain ⟨newly, hq, hnd, hmem⟩ := ih (decAt indeg m)
      (match alook (decAt indeg m) m with
        | some d => if d = 0 then q ++ [m] else q
        | none => q)
    by_cases henq : alook (decAt indeg m) m = some 0
    · -- the head decrement enqueues m
      have hv1 : alook indeg m = some 1 := by
        rw [alook_decAt, if_pos rfl] at henq
        cases halook : alook indeg m with
        | none => rw [halook] at henq; exact Option.noConfusion henq
        | some v =>
          rw [halook] at henq
          have hveq := Option.some.inj (show some (v - 1) = some 0 from henq)
          have : v = 1 := by omega
          rw [this]
      have harg : (match alook (decAt indeg m) m with
          | some d => if d = 0 then q ++ [m] else q
          | none => q) = q ++ [m] := by
        rw [henq]
        simp
      rw [harg] at hq
      refine ⟨m :: newly, ?_, ?_, ?_⟩
      · rw [harg, hq]
        simp
      · refine List.nodup_cons.mpr ⟨?_, hnd⟩
        intro hmn
        obtain ⟨v, hv, h1, _⟩ := (hmem m).mp hmn
        have := Option.some.inj (henq.symm.trans hv)
        omega
      · intro x
        by_cases hxm : x = m
        · subst hxm
          simp only [List.mem_cons, true_or, true_iff]
          refine ⟨1, hv1, by omega, ?_⟩
          rw [List.count_cons_self]
          push_cast
          omega
        · simp only [List.mem_cons, hxm, false_or]
          rw [hmem x]
          constructor
          · rintro ⟨v, hv, h1, h2⟩
            rw [alook_decAt, if_neg hxm] at hv
            exact ⟨v, hv, h1, by rw [List.count_cons_of_ne hxm]; exact h2⟩
          · rintro ⟨v, hv, h1, h2⟩
            refine ⟨v, ?_, h1, ?_⟩
            · rw [alook_decAt, if_neg hxm]
              exact hv
            · rw [List.count_cons_of_ne hxm] at h2
              exact h2
    · -- no enqueue at the head
      have harg : (match alook (decAt indeg m) m with
          | some d => if d = 0 then q ++ [m] else q
          | none => q) = q := by
        cases halook : alook (decAt indeg m) m with
        | none => rfl
        | some d =>
          have hd : ¬ d = 0 := by
            intro h
            rw [h] at halook
            exact henq halook
          simp [hd]
      rw [harg] at hq
      refine ⟨newly, by rw [harg, hq], hnd, ?_⟩
      intro x
      rw [hmem x]
      by_cases hxm : x = m
      · subst hxm
        constructor
        · rintro ⟨v, hv, h1, h2⟩
          rw [alook_decAt, if_pos rfl] at hv
          cases halook : alook indeg x with
          | none => rw [halook] at hv; exact Option.noConfusion hv
          | some w =>
            rw [halook] at hv
            have hw := Option.some.inj (show some (w - 1) = some v from hv)
            refine ⟨w, rfl, by omega, ?_⟩
            rw [List.count_cons_self]
            push_cast
            omega
        · rintro ⟨v, hv, h1, h2⟩
          by_cases hv1 : v = 1
          · exfalso
            apply henq
            rw [alook_decAt, if_pos rfl, hv, hv1]
            rfl
          · refine ⟨v - 1, ?_, by omega, ?_⟩
            · rw [alook_decAt, if_pos rfl, hv]
              rfl
            · rw [List.count_cons_self] at h2
              push_cast at h2 ⊢
              omega
      · constructor
        · rintro ⟨v, hv, h1, h2⟩
          rw [alook_decAt, if_neg hxm] at hv
          exact ⟨v, hv, h1, by rw [List.count_cons_of_ne hxm]; exact h2⟩
        · rintro ⟨v, hv, h1, h2⟩
          refine ⟨v, ?_, h1, ?_⟩
          · rw [alook_decAt, if_neg hxm]
            exact hv
          · rw [List.count_cons_of_ne hxm] at h2
            exact h2

/-! ### Kahn's algorithm: termination measure -/

theorem sumPos_cons (p : String × Int) (l : List (String × Int)) :
    sumPos (p :: l) = p.2.toNat + sumPos l := by
  simp [sumPos]

theorem sumPos_decAt_le (l : List (String × Int)) (m : String) :
    sumPos (decAt l m) ≤ sumPos l := by
  induction l with
  | nil => simp [decAt, sumPos]
  | cons p rest ih =>
    simp only [decAt, List.map_cons] at *
    by_cases h : p.1 = m
    · rw [if_pos h, sumPos_cons, sumPos_cons]
      have : (p.2 - 1).toNat ≤ p.2.toNat := by omega
      omega
    · rw [if_neg h, sumPos_cons, sumPos_cons]
      omega

theorem sumPos_decAt_enq (l : List (String × Int)) (m : String)
    (hv : alook l m = some 1) : sumPos (decAt l m) + 1 ≤ sumPos l := by
  induction l with
  | nil => simp [alook] at hv
  | cons p rest ih =>
    simp only [alook] at hv
    simp only [decAt, List.map_cons]
    by_cases h : p.1 = m
    · rw [if_pos h, sumPos_cons, sumPos_cons]
      rw [if_pos h] at hv
      have hp2 : p.2 = 1 := Option.some.inj hv
      have hle := sumPos_decAt_le rest m
      simp only [decAt] at hle
      omega
    · rw [if_neg h, sumPos_cons, sumPos_cons]
      rw [if_neg h] at hv
      have := ih hv
      simp only [decAt] at this
      omega

theorem processAdj_measure : ∀ (ms : List String) (indeg : List (String × Int))
    (q : List String),
    (processAdj ms indeg q).2.length + sumPos (processAdj ms indeg q).1 ≤
      q.length + sumPos indeg := by
  intro ms
  induction ms with
  | nil => intro indeg q; simp [processAdj]
  | cons m rest ih =>
    intro indeg q
    simp only [processAdj]
    by_cases henq : alook (decAt indeg m) m = some 0
    · have hv1 : alook indeg m = some 1 := by
        rw [alook_decAt, if_pos rfl] at henq
        cases halook : alook indeg m with
        | none => rw [halook] at henq; exact Option.noConfusion henq
        | some v =>
          rw [halook] at henq
          have hveq := Option.some.inj (show some (v - 1) = some 0 from henq)
          have : v = 1 := by omega
          rw [this]
      have harg : (match alook (decAt indeg m) m with
          | some d => if d = 0 then q ++ [m] else q
          | none => q) = q ++ [m] := by
        rw [henq]
        simp
      rw [harg]
      have hmeas := ih (decAt indeg m) (q ++ [m])
      have hdec := sumPos_decAt_enq indeg m hv1
      simp only [List.length_append, List.length_cons, List.length_nil] at hmeas ⊢
      omega
    · have harg : (match alook (decAt indeg m) m with
          | some d => if d = 0 then q ++ [m] else q
          | none => q) = q := by
        cases halook : alook (decAt indeg m) m with
        | none => rfl
        | some d =>
          have hd : ¬ d = 0 := fun h => henq (h ▸ halook)
          simp [hd]
      rw [harg]
      have hmeas := ih (decAt indeg m) q
      have hdec := sumPos_decAt_le indeg m
      omega

/-- The queue contents are always a prefix of what the loop will emit next
(FIFO: every enqueued element is dequeued in order). -/
theorem kahnLoopF_prefix (adj : List (String × List String)) :
    ∀ (fuel : Nat) (queue : List String) (indeg : List (String × Int))
      (sorted : List String),
      queue.length + sumPos indeg ≤ fuel →
      ∃ t, kahnLoopF adj fuel queue indeg sorted = sorted ++ queue ++ t := by
  intro fuel
  induction fuel with
  | zero =>
    intro queue indeg sorted hm
    have hql : queue.length = 0 := by omega
    have hq : queue = [] := List.eq_nil_of_length_eq_zero hql
    subst hq
    exact ⟨[], by simp [kahnLoopF]⟩
  | succ f ih =>
    intro queue indeg sorted hm
    cases queue with
    | nil => exact ⟨[], by simp [kahnLoopF]⟩
    | cons q rest =>
      rw [kahnLoopF]
      have hmeas := processAdj_measure ((alook adj q).getD []) indeg rest
      obtain ⟨newly, hq2, _, _⟩ :=
        processAdj_queue ((alook adj q).getD []) indeg rest
      simp only [List.length_cons] at hm
      obtain ⟨t, ht⟩ := ih (processAdj ((alook adj q).getD []) indeg rest).2
        (processAdj ((alook adj q).getD []) indeg rest).1 (sorted ++ [q])
        (by omega)
      refine ⟨newly ++ t, ?_⟩
      rw [ht, hq2]
      simp

/-! ### Kahn's algorithm: the loop invariant -/

theorem remCount_zero_iff (prof : List (String × List String)) (sorted : List String)
    (b : String) :
    remCount prof sorted b = 0 ↔ ∀ a ∈ depsP prof b, a ∈ sorted := by
  unfold remCount
  rw [List.length_eq_zero, List.filter_eq_nil_iff]
  constructor
  · intro h a ha
    have := h a ha
    simpa using this
  · intro h a ha
    simpa using h a ha

theorem remCount_snoc (prof : List (String × List String)) (sorted : List String)
    (q b : String) (hq : q ∉ sorted) :
    remCount prof sorted b = remCount prof (sorted ++ [q]) b +
      (depsP prof b).count q := by
  unfold remCount
  generalize depsP prof b = l
  induction l with
  | nil => simp
  | cons x rest ih =>
    simp only [List.filter_cons]
    by_cases hxq : x = q
    · subst hxq
      rw [if_pos (by simpa using hq), if_neg (by simp), List.count_cons_self]
      simp only [List.length_cons]
      omega
    · rw [List.count_cons_of_ne (fun h => hxq h.symm)]
      by_cases hxs : x ∈ sorted
      · rw [if_neg (by simp [hxs]), if_neg (by simp; exact fun h => absurd hxs h)]
        exact ih
      · have hx2 : x ∉ sorted ++ [q] := by simp [hxs, hxq]
        rw [if_pos (by simp [hxs]), if_pos (by simpa using hx2)]
        simp only [List.length_cons]
        omega

theorem kahnOut_of_inv (prof : List (String × List String)) (sorted : List String)
    (indeg : List (String × Int)) (hinv : KahnInv prof sorted [] indeg) :
    KahnOut prof sorted := by
  obtain ⟨h1, h2, _, _, h5, h6⟩ := hinv
  simp only [List.append_nil] at h1 h2 h5
  refine ⟨h1, h2, h6, ?_⟩
  intro b hb
  exact (h5 b hb).trans (remCount_zero_iff prof sorted b)

theorem kahn_main (prof : List (String × List String)) (hWF : ProfWF prof) :
    ∀ (fuel : Nat) (queue : List String) (indeg : List (String × Int))
      (sorted : List String),
      queue.length + sumPos indeg ≤ fuel →
      KahnInv prof sorted queue indeg →
      KahnOut prof (kahnLoopF (buildAdj prof) fuel queue indeg sorted) := by
  intro fuel
  induction fuel with
  | zero =>
    intro queue indeg sorted hm hinv
    have hq : queue = [] := List.eq_nil_of_length_eq_zero (by omega)
    subst hq
    exact kahnOut_of_inv prof sorted indeg hinv
  | succ f ih =>
    intro queue indeg sorted hm hinv
    cases queue with
    | nil => exact kahnOut_of_inv prof sorted indeg hinv
    | cons q rest =>
      rw [kahnLoopF]
      obtain ⟨hnd, hmemK, hindeg, hindnone, hiff, hgood⟩ := hinv
      have hqK : q ∈ profKeys prof := hmemK q (by simp)
      have hadjq : (alook (buildAdj prof) q).getD [] =
          ((edgePairs prof).filter (fun e => decide (e.1 = q))).map Prod.snd := by
        rw [alook_buildAdj prof q hqK]
        rfl
      have hcnt : ∀ b, b ∈ profKeys prof →
          ((alook (buildAdj prof) q).getD []).count b = (depsP prof b).count q := by
        intro b hb
        rw [hadjq, edge_count prof hWF.1 q b, if_pos hb]
      have hqs : q ∉ sorted := by
        intro hqsorted
        exact (List.nodup_append.mp hnd).2.2 hqsorted (by simp)
      have hq0 : remCount prof sorted q = 0 := (hiff q hqK).mp (by simp)
      have hqdeps : ∀ a ∈ depsP prof q, a ∈ sorted :=
        (remCount_zero_iff _ _ _).mp hq0
      have hcnt0 : ∀ b, b ∈ profKeys prof → remCount prof sorted b = 0 →
          (depsP prof b).count q = 0 := by
        intro b hb h0
        rw [List.count_eq_zero]
        intro hqb
        exact hqs ((remCount_zero_iff _ _ _).mp h0 q hqb)
      obtain ⟨newly, hq2, hndnew, hmemnew⟩ :=
        processAdj_queue ((alook (buildAdj prof) q).getD []) indeg rest
      have hmeas := processAdj_measure ((alook (buildAdj prof) q).getD []) indeg rest
      simp only [List.length_cons] at hm
      have hnewly : ∀ x, x ∈ newly ↔ x ∈ profKeys prof ∧
          1 ≤ remCount prof sorted x ∧
          remCount prof sorted x ≤ (depsP prof x).count q := by
        intro x
        rw [hmemnew x]
        constructor
        · rintro ⟨v, hv, h1, h2⟩
          have hxK : x ∈ profKeys prof := by
            by_contra hxK
            rw [hindnone x hxK] at hv
            exact Option.noConfusion hv
          rw [hindeg x hxK] at hv
          have hveq := Option.some.inj hv
          rw [hcnt x hxK] at h2
          rw [← hveq] at h1 h2
          refine ⟨hxK, by omega, by omega⟩
        · rintro ⟨hxK, h1, h2⟩
          refine ⟨(remCount prof sorted x : Int), hindeg x hxK, by omega, ?_⟩
          rw [hcnt x hxK]
          omega
      apply ih _ _ _ (by omega)
      refine ⟨?_, ?_, ?_, ?_, ?_, TopoGood.snoc hgood hqdeps⟩
      · rw [hq2]
        have hre : (sorted ++ [q]) ++ (rest ++ newly) =
            (sorted ++ q :: rest) ++ newly := by
          simp
        rw [hre]
        refine List.nodup_append.mpr ⟨hnd, hndnew, ?_⟩
        intro x hxold hxnew
        obtain ⟨hxK, h1, _⟩ := (hnewly x).mp hxnew
        have h0 : remCount prof sorted x = 0 := (hiff x hxK).mp hxold
        omega
      · rw [hq2]
        intro x hx
        rcases List.mem_append.mp hx with hx1 | hx2
        · rcases List.mem_append.mp hx1 with hx3 | hx4
          · exact hmemK x (by simp [hx3])
          · have : x = q := by simpa using hx4
            subst this
            exact hqK
        · rcases List.mem_append.mp hx2 with hx3 | hx4
          · exact hmemK x (by simp [hx3])
          · exact ((hnewly x).mp hx4).1
      · intro b hb
        rw [processAdj_indeg, hindeg b hb]
        have hsv := remCount_snoc prof sorted q b hqs
        have hc := hcnt b hb
        show some ((remCount prof sorted b : Int) -
          (((alook (buildAdj prof) q).getD []).count b : Int)) =
          some ((remCount prof (sorted ++ [q]) b : Int))
        rw [hc]
        congr 1
        omega
      · intro b hb
        rw [processAdj_indeg, hindnone b hb]
        rfl
      · intro b hb
        rw [hq2]
        have hsv := remCount_snoc prof sorted q b hqs
        constructor
        · intro hx
          have hcases : b ∈ sorted ∨ b = q ∨ b ∈ rest ∨ b ∈ newly := by
            rcases List.mem_append.mp hx with hx1 | hx2
            · rcases List.mem_append.mp hx1 with hx3 | hx4
              · exact Or.inl hx3
              · exact Or.inr (Or.inl (by simpa using hx4))
            · rcases List.mem_append.mp hx2 with hx3 | hx4
              · exact Or.inr (Or.inr (Or.inl hx3))
              · exact Or.inr (Or.inr (Or.inr hx4))
          rcases hcases with hc | hc | hc | hc
          · have h0 : remCount prof sorted b = 0 := (hiff b hb).mp (by simp [hc])
            have := hcnt0 b hb h0
            omega
          · subst hc
            have := hcnt0 b hb hq0
            omega
          · have h0 : remCount prof sorted b = 0 := (hiff b hb).mp (by simp [hc])
            have := hcnt0 b hb h0
            omega
          · obtain ⟨_, h1, h2⟩ := (hnewly b).mp hc
            omega
        · intro h0
          by_cases hold : b ∈ sorted ++ q :: rest
          · rcases List.mem_append.mp hold with hx1 | hx2
            · exact List.mem_append.mpr (Or.inl (List.mem_append.mpr (Or.inl hx1)))
            · rcases List.mem_cons.mp hx2 with hx3 | hx4
              · subst hx3
                exact List.mem_append.mpr (Or.inl (List.mem_append.mpr (Or.inr (by simp))))
              · exact List.mem_append.mpr (Or.inr (List.mem_append.mpr (Or.inl hx4)))
          · have hpos : remCount prof sorted b ≠ 0 :=
              fun hc => hold ((hiff b hb).mpr hc)
            have hbnew : b ∈ newly := by
              rw [hnewly b]
              exact ⟨hb, by omega, by omega⟩
            exact List.mem_append.mpr (Or.inr (List.mem_append.mpr (Or.inr hbnew)))

/-! ### Kahn's algorithm: the initial state and the whole run -/

theorem mem_filterZero_iff (l : List (String × Int))
    (hnd : (l.map Prod.fst).Nodup) (b : String) :
    b ∈ (l.filter (fun p => p.2 = 0)).map Prod.fst ↔ alook l b = some 0 := by
  induction l with
  | nil => simp [alook]
  | cons p rest ih =>
    have hnd' : (p.1 :: rest.map Prod.fst).Nodup := hnd
    have hndr : (rest.map Prod.fst).Nodup := hnd'.of_cons
    have hp1 : p.1 ∉ rest.map Prod.fst := (List.nodup_cons.mp hnd').1
    simp only [List.filter_cons]
    by_cases hp0 : p.2 = 0
    · rw [if_pos (by simp [hp0])]
      simp only [List.map_cons, List.mem_cons]
      constructor
      · rintro (h | h)
        · subst h
          simp [alook, hp0]
        · have halook := (ih hndr).mp h
          have hbK : b ∈ rest.map Prod.fst := by
            have := alook_mem rest b 0 halook
            exact List.mem_map.mpr ⟨(b, 0), this, rfl⟩
          have hpb : ¬ p.1 = b := fun hc => hp1 (hc ▸ hbK)
          simp only [alook]
          rw [if_neg hpb]
          exact halook
      · intro h
        simp only [alook] at h
        by_cases hpb : p.1 = b
        · rw [if_pos hpb] at h
          exact Or.inl hpb.symm
        · rw [if_neg hpb] at h
          exact Or.inr ((ih hndr).mpr h)
    · rw [if_neg (by simp [hp0])]
      by_cases hpb : p.1 = b
      · constructor
        · intro h
          have halook := (ih hndr).mp h
          have hbK : b ∈ rest.map Prod.fst := by
            have := alook_mem rest b 0 halook
            exact List.mem_map.mpr ⟨(b, 0), this, rfl⟩
          exact absurd (hpb ▸ hbK) hp1
        · intro h
          simp only [alook] at h
          rw [if_pos hpb] at h
          have := Option.some.inj h
          exact absurd this hp0
      · rw [ih hndr]
        simp only [alook]
        rw [if_neg hpb]

theorem buildIndeg_keys (prof : List (String × List String)) :
    (buildIndeg prof).map Prod.fst = profKeys prof := by
  unfold buildIndeg profKeys
  rw [List.map_map]
  rfl

theorem kahn_init (prof : List (String × List String)) (hWF : ProfWF prof) :
    KahnInv prof [] (profSeeds prof) (buildIndeg prof) := by
  obtain ⟨hnd, hdeps⟩ := hWF
  have hndInd : ((buildIndeg prof).map Prod.fst).Nodup := by
    rw [buildIndeg_keys]
    exact hnd
  have hJ2 : ∀ b ∈ profKeys prof,
      alook (buildIndeg prof) b = some ((remCount prof [] b : Int)) := by
    intro b hb
    unfold buildIndeg
    rw [alook_map_pair prof (fun p => ((p.2.length : Int))) b]
    obtain ⟨L, hL⟩ := alook_isSome_of_mem prof b hb
    rw [hL]
    have hdp : depsP prof b = L := by
      unfold depsP
      rw [hL]
      rfl
    have hrc : remCount prof [] b = L.length := by
      unfold remCount
      rw [hdp]
      have : L.filter (fun a => decide (a ∉ ([] : List String))) = L := by
        apply List.filter_eq_self.mpr
        intro a _
        simp
      rw [this]
    rw [hrc]
    rfl
  refine ⟨?_, ?_, hJ2, ?_, ?_, TopoGood.nil⟩
  · simp only [List.nil_append]
    unfold profSeeds
    exact List.Nodup.sublist
      (List.Sublist.map Prod.fst (List.filter_sublist (buildIndeg prof))) hndInd
  · intro x hx
    simp only [List.nil_append] at hx
    unfold profSeeds at hx
    obtain ⟨p, hp, hpe⟩ := List.mem_map.mp hx
    have := List.mem_of_mem_filter hp
    rw [← buildIndeg_keys prof]
    exact List.mem_map.mpr ⟨p, this, hpe⟩
  · intro b hb
    rw [alook_eq_none]
    rw [buildIndeg_keys]
    exact hb
  · intro b hb
    simp only [List.nil_append]
    unfold profSeeds
    rw [mem_filterZero_iff (buildIndeg prof) hndInd b, hJ2 b hb]
    constructor
    · intro h
      have := Option.some.inj h
      omega
    · intro h
      rw [h]
      rfl

theorem kahnRun_out (prof : List (String × List String)) (hWF : ProfWF prof) :
    KahnOut prof (kahnRun prof) := by
  unfold kahnRun
  apply kahn_main prof hWF _ _ _ _ ?_ (kahn_init prof hWF)
  have h1 : ((buildIndeg prof).filter (fun p => p.2 = 0)).length ≤
      (buildIndeg prof).length := List.length_filter_le _ _
  have h2 : (buildIndeg prof).length = prof.length := by
    unfold buildIndeg
    rw [List.length_map]
  have h3 : (((buildIndeg prof).filter (fun p => p.2 = 0)).map
      (fun p => p.1)).length = ((buildIndeg prof).filter (fun p => p.2 = 0)).length :=
    List.length_map _ _
  have h4 : (profSeeds prof).length =
      ((buildIndeg prof).filter (fun p => p.2 = 0)).length := List.length_map _ _
  omega

theorem kahnRun_prefix (prof : List (String × List String)) :
    ∃ t, kahnRun prof = profSeeds prof ++ t := by
  unfold kahnRun
  have h1 : ((buildIndeg prof).filter (fun p => p.2 = 0)).length ≤
      (buildIndeg prof).length := List.length_filter_le _ _
  have h2 : (buildIndeg prof).length = prof.length := by
    unfold buildIndeg
    rw [List.length_map]
  obtain ⟨t, ht⟩ := kahnLoopF_prefix (buildAdj prof)
    (prof.length + sumPos (buildIndeg prof))
    (((buildIndeg prof).filter (fun p => p.2 = 0)).map (fun p => p.1))
    (buildIndeg prof) [] (by simp only [List.length_map]; omega)
  exact ⟨t, by rw [ht]; rfl⟩

/-! ### C1: assembling the correctness statement of `_topological_sort` -/

theorem idx_append_left {α : Type} [DecidableEq α] (l1 l2 : List α) (a : α)
    (h : a ∈ l1) : List.indexOf a (l1 ++ l2) = List.indexOf a l1 := by
  induction l1 with
  | nil => cases h
  | cons x xs ih =>
    by_cases hxa : x = a
    · subst hxa
      simp [List.indexOf_cons]
    · have ha : a ∈ xs := by
        rcases List.mem_cons.mp h with h1 | h1
        · exact absurd h1.symm hxa
        · exact h1
      simp [List.indexOf_cons, hxa, ih ha]

theorem idx_last {α : Type} [DecidableEq α] (l : List α) (x : α) (h : x ∉ l) :
    List.indexOf x (l ++ [x]) = l.length := by
  induction l with
  | nil => simp [List.indexOf_cons]
  | cons y ys ih =>
    have h2 : x ∉ ys := fun hx => h (List.mem_cons_of_mem y hx)
    have hyx : ¬ y = x := fun he => h (he ▸ List.mem_cons_self y ys)
    simp [List.indexOf_cons, hyx, ih h2]

theorem topoGood_split (dp : String → List String) :
    ∀ (out : List String), TopoGood dp out → ∀ b ∈ out,
      ∃ l1 l2, out = l1 ++ b :: l2 ∧ ∀ a ∈ dp b, a ∈ l1 := by
  intro out hgood
  induction hgood with
  | nil => intro b hb; cases hb
  | snoc hgood hsub ih =>
    rename_i l x
    intro b hb
    rcases List.mem_append.mp hb with h1 | h1
    · obtain ⟨l1, l2, he, hd⟩ := ih b h1
      exact ⟨l1, l2 ++ [x], by rw [he]; simp, hd⟩
    · have hbx : b = x := by simpa using h1
      subst hbx
      exact ⟨l, [], rfl, hsub⟩

theorem topoGood_lt (dp : String → List String) :
    ∀ (out : List String), TopoGood dp out → out.Nodup →
      ∀ b ∈ out, ∀ a ∈ dp b,
        a ∈ out ∧ List.indexOf a out < List.indexOf b out := by
  intro out hgood
  induction hgood with
  | nil => intro _ b hb; cases hb
  | snoc hgood hsub ih =>
    rename_i l x
    intro hnd b hb a ha
    have hndl : l.Nodup := (List.nodup_append.mp hnd).1
    have hxl : x ∉ l := by
      intro hx
      exact (List.nodup_append.mp hnd).2.2 hx (by simp)
    rcases List.mem_append.mp hb with h1 | h1
    · obtain ⟨hal, hlt⟩ := ih hndl b h1 a ha
      refine ⟨List.mem_append_left _ hal, ?_⟩
      rw [idx_append_left l [x] a hal, idx_append_left l [x] b h1]
      exact hlt
    · have hbx : b = x := by simpa using h1
      subst hbx
      have hal : a ∈ l := hsub a ha
      refine ⟨List.mem_append_left _ hal, ?_⟩
      rw [idx_append_left l [b] a hal, idx_last l b hxl]
      exact List.indexOf_lt_length.mpr hal

theorem kahnOut_transGen_lt (prof : List (String × List String))
    (out : List String) (hout : KahnOut prof out) :
    ∀ a b, Relation.TransGen (EdgeP prof) a b → b ∈ out →
      a ∈ out ∧ List.indexOf a out < List.indexOf b out := by
  obtain ⟨hnd, _, hgood, _⟩ := hout
  intro a b h
  induction h with
  | single he =>
    intro hb
    exact topoGood_lt (depsP prof) out hgood hnd _ hb a he.2
  | tail h1 he ih =>
    intro hc
    obtain ⟨hbm, hlt1⟩ := topoGood_lt (depsP prof) out hgood hnd _ hc _ he.2
    obtain ⟨ha, hlt2⟩ := ih hbm
    exact ⟨ha, by omega⟩

theorem stuck_reaches_cycle (E : String → String → Prop) (S : List String)
    (hS : ∀ b ∈ S, ∃ a ∈ S, E a b) :
    ∀ n ∈ S, ∃ c, Relation.TransGen E c c ∧
      (c = n ∨ Relation.TransGen E c n) := by
  classical
  intro n hn
  obtain ⟨g, hg⟩ : ∃ g : String → String, ∀ b ∈ S, g b ∈ S ∧ E (g b) b := by
    refine ⟨fun b => if h : b ∈ S then (hS b h).choose else b, ?_⟩
    intro b hb
    dsimp only
    rw [dif_pos hb]
    exact (hS b hb).choose_spec
  have hx : ∀ k, g^[k] n ∈ S := by
    intro k
    induction k with
    | zero => simpa using hn
    | succ k ih =>
      rw [Function.iterate_succ_apply']
      exact (hg _ ih).1
  have hedge : ∀ k, E (g^[k + 1] n) (g^[k] n) := by
    intro k
    rw [Function.iterate_succ_apply']
    exact (hg _ (hx k)).2
  have hchain : ∀ i d, Relation.TransGen E (g^[i + d + 1] n) (g^[i] n) := by
    intro i d
    induction d with
    | zero => exact Relation.TransGen.single (hedge i)
    | succ d ih => exact Relation.TransGen.head (hedge (i + d + 1)) ih
  have key : ∀ i j : Nat, i < j → g^[i] n = g^[j] n →
      ∃ c, Relation.TransGen E c c ∧ (c = n ∨ Relation.TransGen E c n) := by
    intro i j hlt heq
    have hc1 : Relation.TransGen E (g^[j] n) (g^[i] n) := by
      have h1 := hchain i (j - i - 1)
      have h2 : i + (j - i - 1) + 1 = j := by omega
      rw [h2] at h1
      exact h1
    rw [← heq] at hc1
    rcases Nat.eq_zero_or_pos i with hi0 | hipos
    · refine ⟨n, ?_, Or.inl rfl⟩
      have h0 : g^[i] n = n := by rw [hi0]; rfl
      rw [h0] at hc1
      exact hc1
    · refine ⟨g^[i] n, hc1, Or.inr ?_⟩
      have h3 := hchain 0 (i - 1)
      have h4 : 0 + (i - 1) + 1 = i := by omega
      rw [h4] at h3
      rw [show g^[0] n = n from rfl] at h3
      exact h3
  have hcard : (S.toFinset).card < (Finset.range (S.length + 1)).card := by
    rw [Finset.card_range]
    exact Nat.lt_succ_of_le (List.toFinset_card_le S)
  have hmaps : ∀ k ∈ Finset.range (S.length + 1), g^[k] n ∈ S.toFinset := by
    intro k _
    exact List.mem_toFinset.mpr (hx k)
  obtain ⟨i, _, j, _, hij, hfij⟩ :=
    Finset.exists_ne_map_eq_of_card_lt_of_maps_to hcard hmaps
  rcases Nat.lt_or_ge i j with hlt | hge
  · exact key i j hlt hfij
  · have hlt2 : j < i := by omega
    exact key j i hlt2 hfij.symm

theorem namesOf_profKeys (reg : Registry V) :
    profKeys (regProfile reg) = namesOf reg := by
  unfold profKeys regProfile namesOf
  rw [List.map_map]
  rfl

theorem depsP_regProfile (reg : Registry V) (n : String) :
    depsP (regProfile reg) n = depsOfName reg n := by
  unfold depsP depsOfName regProfile
  rw [alook_map_pair reg.nodes (fun p => depNamesOf reg p.2) n]
  cases alook reg.nodes n <;> rfl

theorem edgeP_iff_edgeN (reg : Registry V) (a b : String) :
    EdgeP (regProfile reg) a b ↔ EdgeN reg a b := by
  unfold EdgeP EdgeN
  rw [namesOf_profKeys, depsP_regProfile]

theorem profWF_of_WFreg (reg : Registry V) (hWF : WFreg reg) :
    ProfWF (regProfile reg) := by
  obtain ⟨hnd, _, hdep⟩ := hWF
  constructor
  · rw [namesOf_profKeys]
    exact hnd
  · intro p hp a ha
    rw [namesOf_profKeys]
    obtain ⟨q, hq, hqe⟩ := List.mem_map.mp hp
    rw [← hqe] at ha
    obtain ⟨d, hd, hde⟩ := List.mem_map.mp ha
    rw [← hde]
    exact hdep q hq d hd

theorem profSeeds_regProfile (reg : Registry V) :
    profSeeds (regProfile reg) = zeroDepNames reg := by
  unfold profSeeds zeroDepNames buildIndeg regProfile
  rw [List.map_map, List.filter_map, List.map_map]
  have hf : ∀ q ∈ reg.nodes,
      ((fun p : String × Int => decide (p.2 = 0)) ∘
        ((fun p : String × List String => (p.1, (p.2.length : Int))) ∘
          (fun p : String × Nat => (p.1, depNamesOf reg p.2)))) q
        = (fun p : String × Nat =>
            decide ((reg.heap p.2).dependencies = [])) q := by
    intro q _
    simp only [Function.comp_apply]
    simp [depNamesOf, decide_eq_decide, List.length_eq_zero]
  rw [List.filter_congr hf]
  rfl

theorem missing_has_missing_dep (prof : List (String × List String))
    (hWF : ProfWF prof) (out : List String) (hout : KahnOut prof out) :
    ∀ b ∈ (profKeys prof).filter (fun n => decide (n ∉ out)),
      ∃ a ∈ (profKeys prof).filter (fun n => decide (n ∉ out)),
        EdgeP prof a b := by
  intro b hb
  rw [List.mem_filter] at hb
  obtain ⟨hbK, hbO⟩ := hb
  have hbO : b ∉ out := by simpa using hbO
  obtain ⟨_, _, _, hiff⟩ := hout
  have hnot : ¬ ∀ a ∈ depsP prof b, a ∈ out := fun h => hbO ((hiff b hbK).mpr h)
  push_neg at hnot
  obtain ⟨a, ha, haO⟩ := hnot
  obtain ⟨L, hL⟩ := alook_isSome_of_mem prof b hbK
  have hmem := alook_mem prof b L hL
  have hdb : depsP prof b = L := by
    unfold depsP
    rw [hL]
    rfl
  have haK : a ∈ profKeys prof := hWF.2 (b, L) hmem a (hdb ▸ ha)
  exact ⟨a, List.mem_filter.mpr ⟨haK, by simpa using haO⟩, hbK, ha⟩

/-- C1: for a well-formed registry, `_topological_sort` is fully determined by
the registration-order profile of the registry (determinism for a fixed
registration order); when the dependency graph is acyclic it returns an ordering
that contains every registered node exactly once (a permutation of the
registered names), in which every dependency appears strictly before each node
that lists it (for every edge dep → N, dep is in the prefix preceding N), and
whose initial segment is exactly the zero-dependency nodes in registration
order (the FIFO seeds of the ready queue); and it raises the cycle-detected
error if and only if the dependency graph has a cycle, the error naming
exactly those registered nodes that sit on a cycle or transitively depend on
one. -/
theorem topological_sort_spec (reg : Registry V) (hWF : WFreg reg) :
    (∀ reg2 : Registry V, regProfile reg2 = regProfile reg →
        topologicalSort reg2 = topologicalSort reg) ∧
    (¬ HasCycle reg →
      ∃ out, topologicalSort reg = Except.ok out ∧
        out.Perm (namesOf reg) ∧
        (∀ a b, EdgeN reg a b → ∃ l1 l2, out = l1 ++ b :: l2 ∧ a ∈ l1) ∧
        ∃ t, out = zeroDepNames reg ++ t) ∧
    (HasCycle reg →
      ∃ missing, topologicalSort reg = Except.error missing ∧ missing ≠ [] ∧
        ∀ n, n ∈ missing ↔ (n ∈ namesOf reg ∧ OnOrAfterCycle reg n)) := by
  have hWFP : ProfWF (regProfile reg) := profWF_of_WFreg reg hWF
  have hout := kahnRun_out (regProfile reg) hWFP
  obtain ⟨hndO, hsubO, hgood, hiff⟩ := kahnRun_out (regProfile reg) hWFP
  have hbridge : ∀ x y, Relation.TransGen (EdgeP (regProfile reg)) x y ↔
      Relation.TransGen (EdgeN reg) x y := by
    intro x y
    constructor
    · exact Relation.TransGen.mono (fun a b h => (edgeP_iff_edgeN reg a b).mp h)
    · exact Relation.TransGen.mono (fun a b h => (edgeP_iff_edgeN reg a b).mpr h)
  have hkeyslen : (profKeys (regProfile reg)).length = (regProfile reg).length :=
    List.length_map _ _
  have hsub2 : kahnRun (regProfile reg) ⊆ profKeys (regProfile reg) :=
    fun x hx => hsubO x hx
  refine ⟨?_, ?_, ?_⟩
  · intro reg2 h2
    unfold topologicalSort
    rw [h2]
  · intro hnc
    have hall : ∀ k ∈ profKeys (regProfile reg), k ∈ kahnRun (regProfile reg) := by
      intro k hk
      by_contra hkO
      obtain ⟨c2, h1, _⟩ := stuck_reaches_cycle (EdgeP (regProfile reg)) _
        (missing_has_missing_dep _ hWFP _ hout) k
        (List.mem_filter.mpr ⟨hk, by simpa using hkO⟩)
      exact hnc ⟨c2, (hbridge c2 c2).mp h1⟩
    have hperm : (kahnRun (regProfile reg)).Perm (profKeys (regProfile reg)) := by
      apply List.Subperm.perm_of_length_le (List.subperm_of_subset hndO hsub2)
      exact (List.subperm_of_subset hWFP.1 (fun x hx => hall x hx)).length_le
    have hlen : (kahnRun (regProfile reg)).length = (regProfile reg).length := by
      rw [hperm.length_eq, hkeyslen]
    refine ⟨kahnRun (regProfile reg), ?_, ?_, ?_, ?_⟩
    · unfold topologicalSort topoProf
      dsimp only
      rw [if_neg (show ¬ (kahnRun (regProfile reg)).length ≠
        (regProfile reg).length from fun h => h hlen)]
    · rw [← namesOf_profKeys reg]
      exact hperm
    · intro a b he
      have heP : EdgeP (regProfile reg) a b := (edgeP_iff_edgeN reg a b).mpr he
      have hbO : b ∈ kahnRun (regProfile reg) := hall b heP.1
      obtain ⟨l1, l2, hsplit, hd⟩ :=
        topoGood_split (depsP (regProfile reg)) _ hgood b hbO
      exact ⟨l1, l2, hsplit, hd a heP.2⟩
    · obtain ⟨t, ht⟩ := kahnRun_prefix (regProfile reg)
      exact ⟨t, by rw [ht, profSeeds_regProfile]⟩
  · intro hc
    obtain ⟨c, hcyc⟩ := hc
    have hcycP : Relation.TransGen (EdgeP (regProfile reg)) c c :=
      (hbridge c c).mpr hcyc
    have hcK : c ∈ profKeys (regProfile reg) := by
      cases hcycP with
      | single h => exact h.1
      | tail h1 h2 => exact h2.1
    have hcO : c ∉ kahnRun (regProfile reg) := by
      intro hin
      have := (kahnOut_transGen_lt _ _ hout c c hcycP hin).2
      omega
    have hlenne : (kahnRun (regProfile reg)).length ≠ (regProfile reg).length := by
      intro hlen
      have hperm : (kahnRun (regProfile reg)).Perm (profKeys (regProfile reg)) := by
        apply List.Subperm.perm_of_length_le (List.subperm_of_subset hndO hsub2)
        rw [hkeyslen]
        omega
      exact hcO (hperm.mem_iff.mpr hcK)
    refine ⟨((regProfile reg).map (fun p => p.1)).filter
        (fun n => decide (n ∉ kahnRun (regProfile reg))), ?_, ?_, ?_⟩
    · unfold topologicalSort topoProf
      dsimp only
      rw [if_pos hlenne]
    · have hcM : c ∈ ((regProfile reg).map (fun p => p.1)).filter
          (fun n => decide (n ∉ kahnRun (regProfile reg))) :=
        List.mem_filter.mpr ⟨hcK, by simpa using hcO⟩
      exact List.ne_nil_of_mem hcM
    · intro n
      rw [List.mem_filter]
      constructor
      · rintro ⟨hnK, hnO⟩
        have hnO2 : n ∉ kahnRun (regProfile reg) := by simpa using hnO
        refine ⟨by rw [← namesOf_profKeys reg]; exact hnK, ?_⟩
        obtain ⟨c2, h1, h2⟩ := stuck_reaches_cycle (EdgeP (regProfile reg)) _
          (missing_has_missing_dep _ hWFP _ hout) n
          (List.mem_filter.mpr ⟨hnK, by simpa using hnO2⟩)
        refine ⟨c2, (hbridge c2 c2).mp h1, ?_⟩
        rcases h2 with h2 | h2
        · exact Or.inl h2
        · exact Or.inr ((hbridge c2 n).mp h2)
      · rintro ⟨hnN, c2, hc2, hreach⟩
        have hnK : n ∈ profKeys (regProfile reg) := by
          rw [namesOf_profKeys]
          exact hnN
        have hc2P := (hbridge c2 c2).mpr hc2
        have hc2O : c2 ∉ kahnRun (regProfile reg) := by
          intro hin
          have := (kahnOut_transGen_lt _ _ hout c2 c2 hc2P hin).2
          omega
        have hnO : n ∉ kahnRun (regProfile reg) := by
          rcases hreach with he | hr
          · rw [← he]
            exact hc2O
          · intro hin
            exact hc2O
              ((kahnOut_transGen_lt _ _ hout c2 n ((hbridge c2 n).mpr hr) hin).1)
        exact ⟨hnK, by simpa using hnO⟩

/-- Witness for C1: the acyclic two-node fixture (input-like node `a`, dependent
`b`) is well-formed, its sort succeeds with the concrete order `["a", "b"]`, and
the acyclic clause of the theorem applies to it. -/
theorem topological_sort_spec_witness :
    WFreg regAcy ∧ topologicalSort regAcy = Except.ok ["a", "b"] ∧
    (¬ HasCycle regAcy →
      ∃ out, topologicalSort regAcy = Except.ok out ∧
        out.Perm (namesOf regAcy) ∧
        (∀ a b, EdgeN regAcy a b → ∃ l1 l2, out = l1 ++ b :: l2 ∧ a ∈ l1) ∧
        ∃ t, out = zeroDepNames regAcy ++ t) :=
  ⟨by decide, rfl, (topological_sort_spec regAcy (by decide)).2.1⟩

/-! ### C6: the eager pass -/

theorem wf_alook_inj (reg : Registry V) (hWF : WFreg reg) (nm nm2 : String)
    (i : Nat) (h1 : alook reg.nodes nm = some i)
    (h2 : alook reg.nodes nm2 = some i) : nm = nm2 := by
  have m1 := alook_mem _ _ _ h1
  have m2 := alook_mem _ _ _ h2
  have e1 : (reg.heap i).name = nm := hWF.2.1 (nm, i) m1
  have e2 : (reg.heap i).name = nm2 := hWF.2.1 (nm2, i) m2
  rw [← e1]
  exact e2

theorem eagerFold_invoked (f : Nat) (R0 : Registry V) (hWF : WFreg R0) :
    ∀ (names : List String) (st : Registry V × List Nat),
      names.Nodup →
      st.1.nodes = R0.nodes →
      (∀ j, sameStruct (R0.heap j) (st.1.heap j)) →
      (∀ nm ∈ names, ∀ i, alook R0.nodes nm = some i →
        (R0.heap i).mode = ExecutionMode.eager →
        (st.1.heap i).is_computed = (R0.heap i).is_computed) →
      (names.foldl (eagerStep f) st).1.nodes = R0.nodes ∧
      (∀ j, sameStruct (R0.heap j) ((names.foldl (eagerStep f) st).1.heap j)) ∧
      (names.foldl (eagerStep f) st).2 = st.2 ++ eagerPlan R0 names := by
  intro names
  induction names with
  | nil =>
    intro st _ hnodes hstruct _
    exact ⟨hnodes, hstruct, by simp [eagerPlan]⟩
  | cons nm rest ih =>
    intro st hnd hnodes hstruct hic
    have hndr : rest.Nodup := hnd.of_cons
    have hnmr : nm ∉ rest := (List.nodup_cons.mp hnd).1
    rw [List.foldl_cons]
    cases halook : alook R0.nodes nm with
    | none =>
      have hstep : eagerStep f st nm = st := by
        unfold eagerStep
        rw [hnodes, halook]
      have hpick : eagerPick R0 nm = false := by
        unfold eagerPick
        rw [halook]
      rw [hstep]
      obtain ⟨a1, a2, a3⟩ := ih st hndr hnodes hstruct
        (fun nm2 h2 => hic nm2 (List.mem_cons_of_mem nm h2))
      refine ⟨a1, a2, ?_⟩
      rw [a3]
      unfold eagerPlan
      rw [List.filter_cons, if_neg (by simp [hpick])]
    | some i =>
      have halook2 : alook st.1.nodes nm = some i := by
        rw [hnodes]
        exact halook
      have hmode : (st.1.heap i).mode = (R0.heap i).mode := (hstruct i).2.2.2.2.1
      by_cases hcond : (R0.heap i).mode = ExecutionMode.eager ∧
          (R0.heap i).is_computed = false
      · have hicur : (st.1.heap i).is_computed = (R0.heap i).is_computed :=
          hic nm (by simp) i halook hcond.1
        have hstep : eagerStep f st nm = ((computeF f st.1 i false).1, st.2 ++ [i]) := by
          unfold eagerStep
          rw [halook2]
          dsimp only
          rw [if_pos ⟨by rw [hmode]; exact hcond.1, by rw [hicur]; exact hcond.2⟩]
        rw [hstep]
        have hn2 : (computeF f st.1 i false).1.nodes = R0.nodes := by
          rw [computeF_nodes]
          exact hnodes
        have hs2 : ∀ j, sameStruct (R0.heap j) ((computeF f st.1 i false).1.heap j) :=
          fun j => sameStruct_trans (hstruct j) (computeF_struct f st.1 i false j)
        have hic2 : ∀ nm2 ∈ rest, ∀ i2, alook R0.nodes nm2 = some i2 →
            (R0.heap i2).mode = ExecutionMode.eager →
            ((computeF f st.1 i false).1.heap i2).is_computed =
              (R0.heap i2).is_computed := by
          intro nm2 h2 i2 hl2 hm2
          have hne : i2 ≠ i := by
            intro he
            subst he
            exact hnmr ((wf_alook_inj R0 hWF nm2 nm i2 hl2 halook) ▸ h2)
          have hmode2 : (st.1.heap i2).mode = ExecutionMode.eager := by
            rw [(hstruct i2).2.2.2.2.1]
            exact hm2
          rw [(evalEager f).1 st.1 i false i2 hne hmode2]
          exact hic nm2 (List.mem_cons_of_mem nm h2) i2 hl2 hm2
        obtain ⟨a1, a2, a3⟩ :=
          ih ((computeF f st.1 i false).1, st.2 ++ [i]) hndr hn2 hs2 hic2
        refine ⟨a1, a2, ?_⟩
        rw [a3]
        have hpick : eagerPick R0 nm = true := by
          unfold eagerPick
          rw [halook]
          exact decide_eq_true hcond
        unfold eagerPlan
        rw [List.filter_cons, if_pos (by simp [hpick]), List.filterMap_cons, halook]
        simp [List.append_assoc]
      · have hncond : ¬ ((st.1.heap i).mode = ExecutionMode.eager ∧
            (st.1.heap i).is_computed = false) := by
          intro hcc
          apply hcond
          have hm0 : (R0.heap i).mode = ExecutionMode.eager := by
            rw [← hmode]
            exact hcc.1
          refine ⟨hm0, ?_⟩
          rw [← hic nm (by simp) i halook hm0]
          exact hcc.2
        have hstep : eagerStep f st nm = st := by
          unfold eagerStep
          rw [halook2]
          dsimp only
          rw [if_neg hncond]
        have hpick : eagerPick R0 nm = false := by
          unfold eagerPick
          rw [halook]
          exact decide_eq_false hcond
        rw [hstep]
        obtain ⟨a1, a2, a3⟩ := ih st hndr hnodes hstruct
          (fun nm2 h2 => hic nm2 (List.mem_cons_of_mem nm h2))
        refine ⟨a1, a2, ?_⟩
        rw [a3]
        unfold eagerPlan
        rw [List.filter_cons, if_neg (by simp [hpick])]

/-- C6: the eager pass is guarded by the `eager_executed` flag (a second call is
a no-op returning the executor unchanged and invoking nothing); when the flag is
clear and the topological sort succeeds, the pass sets the flag (so the pass is
idempotent per executor instance), and it invokes `compute()` directly on
exactly the nodes of the order whose mode is EAGER and which were not already
computed at the start of the pass, in topological order — in particular every
directly invoked node is EAGER and uncomputed, so LAZY/CACHED nodes are never
computed directly by the pass; and the forcing mechanism for dependencies is
`get_value`: on a dirty LAZY or CACHED node with no active override,
`get_value` delegates to `compute` and re-reads the freshly stored result. -/
theorem eager_pass_spec (f : Nat) (d : Dag V) (hWF : WFreg d.reg) :
    (d.eager_executed = true → runEagerNodes f d = (d, [])) ∧
    (∀ order, d.eager_executed = false →
      topologicalSort d.reg = Except.ok order →
      (runEagerNodes f d).1.eager_executed = true ∧
      runEagerNodes f (runEagerNodes f d).1 = ((runEagerNodes f d).1, []) ∧
      (runEagerNodes f d).2 = eagerPlan d.reg order ∧
      (∀ i ∈ (runEagerNodes f d).2,
        (d.reg.heap i).mode = ExecutionMode.eager ∧
        (d.reg.heap i).is_computed = false)) ∧
    (∀ (reg : Registry V) (i g : Nat),
      (reg.heap i).override_stack = [] →
      (reg.heap i).is_dirty = true →
      ((reg.heap i).mode = ExecutionMode.lazy ∨
        (reg.heap i).mode = ExecutionMode.cached) →
      getValueF (g + 1) reg i =
        ((computeF g reg i false).1, ((computeF g reg i false).1.heap i).result,
         (computeF g reg i false).2.2)) := by
  refine ⟨?_, ?_, ?_⟩
  · intro hflag
    unfold runEagerNodes
    rw [if_pos hflag]
  · intro order hflag hok
    have horder : order = kahnRun (regProfile d.reg) := by
      unfold topologicalSort topoProf at hok
      dsimp only at hok
      by_cases hlen : (kahnRun (regProfile d.reg)).length ≠ (regProfile d.reg).length
      · rw [if_pos hlen] at hok
        exact Except.noConfusion hok
      · rw [if_neg hlen] at hok
        exact (Except.ok.inj hok).symm
    have hWFP := profWF_of_WFreg d.reg hWF
    have hndO : order.Nodup := by
      rw [horder]
      exact (kahnRun_out _ hWFP).1
    have hrun : runEagerNodes f d =
        ({ reg := (order.foldl (eagerStep f) (d.reg, [])).1, eager_executed := true },
         (order.foldl (eagerStep f) (d.reg, [])).2) := by
      unfold runEagerNodes
      rw [if_neg (by simp [hflag]), hok]
    obtain ⟨hN, hS, hI⟩ := eagerFold_invoked f d.reg hWF order (d.reg, []) hndO rfl
      (fun j => sameStruct_refl _) (fun nm _ i _ _ => rfl)
    refine ⟨?_, ?_, ?_, ?_⟩
    · rw [hrun]
    · rw [hrun]
      unfold runEagerNodes
      rw [if_pos rfl]
    · rw [hrun]
      dsimp only
      rw [hI]
      simp
    · intro i hi
      rw [hrun] at hi
      dsimp only at hi
      rw [hI] at hi
      simp only [List.nil_append] at hi
      unfold eagerPlan at hi
      obtain ⟨nm, hnm, hlk⟩ := List.mem_filterMap.mp hi
      have hpick := (List.mem_filter.mp hnm).2
      unfold eagerPick at hpick
      rw [hlk] at hpick
      exact of_decide_eq_true hpick
  · intro reg i g ho hd hm
    exact getValueF_force g reg i ho ⟨hd, hm⟩

/-- Witness for C6 on the eager fixture (eager `e1`, lazy `l1`, eager consumer
`e3` of `l1`, already-computed eager `e0`): the pass invokes exactly ids 0 and 2
in topological order, forces the lazy dependency `l1` through `get_value`
(making it computed with value 100 and giving `e3` 200), and a second pass is a
no-op. -/
theorem eager_pass_spec_witness :
    WFreg regEager ∧
    topologicalSort regEager = Except.ok ["e1", "l1", "e0", "e3"] ∧
    (runEagerNodes 3 dagEager).2 = [0, 2] ∧
    ((runEagerNodes 3 dagEager).1.reg.heap 1).is_computed = true ∧
    ((runEagerNodes 3 dagEager).1.reg.heap 1).result = some 100 ∧
    ((runEagerNodes 3 dagEager).1.reg.heap 2).result = some 200 ∧
    runEagerNodes 3 (runEagerNodes 3 dagEager).1 = ((runEagerNodes 3 dagEager).1, []) :=
  ⟨by decide, rfl, rfl, rfl, rfl, rfl,
    ((eager_pass_spec 3 dagEager (by decide)).2.1
      ["e1", "l1", "e0", "e3"] rfl rfl).2.1⟩

/-! ### C10: `execute` swallows the cycle error -/

theorem cycle_topo_error (reg : Registry V) (hWF : WFreg reg)
    (hcyc : HasCycle reg) :
    ∃ missing, topologicalSort reg = Except.error missing := by
  have hWFP : ProfWF (regProfile reg) := profWF_of_WFreg reg hWF
  have hout := kahnRun_out (regProfile reg) hWFP
  obtain ⟨c, hc⟩ := hcyc
  have hcycP : Relation.TransGen (EdgeP (regProfile reg)) c c :=
    Relation.TransGen.mono (fun a b h => (edgeP_iff_edgeN reg a b).mpr h) hc
  have hcK : c ∈ profKeys (regProfile reg) := by
    cases hcycP with
    | single h => exact h.1
    | tail h1 h2 => exact h2.1
  have hcO : c ∉ kahnRun (regProfile reg) := by
    intro hin
    have := (kahnOut_transGen_lt _ _ hout c c hcycP hin).2
    omega
  have hlenne : (kahnRun (regProfile reg)).length ≠ (regProfile reg).length := by
    intro hlen
    have hperm : (kahnRun (regProfile reg)).Perm (profKeys (regProfile reg)) := by
      apply List.Subperm.perm_of_length_le
        (List.subperm_of_subset hout.1 (fun x hx => hout.2.1 x hx))
      have hkl : (profKeys (regProfile reg)).length = (regProfile reg).length :=
        List.length_map _ _
      omega
    exact hcO (hperm.mem_iff.mpr hcK)
  refine ⟨((regProfile reg).map (fun p => p.1)).filter
      (fun n => decide (n ∉ kahnRun (regProfile reg))), ?_⟩
  unfold topologicalSort topoProf
  dsimp only
  rw [if_pos hlenne]

/-- C10: on a registry whose dependency graph has a cycle, `execute(target)`
for a registered target never surfaces the cycle error: the eager pass catches
it internally and returns with the executor unchanged — nothing computed,
nothing invoked, and the `eager_executed` flag still clear, so the pass will be
re-attempted on the next call — and `execute` then proceeds to return the
target node's `get_value()` result (wrapped with the `_print_state` side
effect). -/
theorem execute_swallows_cycle (f : Nat) (d : Dag V) (target : String) (i : Nat)
    (hWF : WFreg d.reg) (hcyc : HasCycle d.reg)
    (hflag : d.eager_executed = false)
    (htgt : alook d.reg.nodes target = some i) :
    runEagerNodes f d = (d, []) ∧
    executeDag f d target =
      Except.ok ({ d with reg := printStateEffect f (getValueF f d.reg i).1 },
        (getValueF f d.reg i).2.1) := by
  obtain ⟨missing, herr⟩ := cycle_topo_error d.reg hWF hcyc
  have hrun : runEagerNodes f d = (d, []) := by
    unfold runEagerNodes
    rw [if_neg (by simp [hflag]), herr]
  refine ⟨hrun, ?_⟩
  unfold executeDag
  rw [htgt]
  dsimp only
  rw [hrun]
  dsimp only
  unfold getNodeValue
  rw [htgt]

/-- Witness for C10 on the cyclic fixture (`x ↔ y` plus a computed input `t`
holding 42): the pass is swallowed, the executor is unchanged, and `execute`
returns `t`'s memoized value 42. -/
theorem execute_swallows_cycle_witness :
    WFreg regCyc ∧ HasCycle regCyc ∧ dagCyc.eager_executed = false ∧
    alook regCyc.nodes "t" = some 2 ∧
    (runEagerNodes 2 dagCyc = (dagCyc, []) ∧
      executeDag 2 dagCyc "t" =
        Except.ok ({ dagCyc with reg := printStateEffect 2 (getValueF 2 regCyc 2).1 },
          (getValueF 2 regCyc 2).2.1)) ∧
    ∃ d2, executeDag 2 dagCyc "t" = Except.ok (d2, some 42) := by
  refine ⟨by decide, ⟨"x", ?_⟩, rfl, rfl, ?_, ?_⟩
  · exact Relation.TransGen.head
      (show EdgeN regCyc "x" "y" from ⟨by decide, by decide⟩)
      (Relation.TransGen.single
        (show EdgeN regCyc "y" "x" from ⟨by decide, by decide⟩))
  · exact execute_swallows_cycle 2 dagCyc "t" 2 (by decide)
      ⟨"x", Relation.TransGen.head
        (show EdgeN dagCyc.reg "x" "y" from ⟨by decide, by decide⟩)
        (Relation.TransGen.single
          (show EdgeN dagCyc.reg "y" "x" from ⟨by decide, by decide⟩))⟩ rfl rfl
  · exact ⟨_, rfl⟩

end GHybrid
